import Mathlib

/-!
Verification of the financial-field extraction core of `scripts/scan_lbc.py`.

The Python functions `parse_amount`, `detect_period_from_snippet`,
`parse_amounts_near_keyword` and the pure part of `parse_ad_page` are
translated into executable Lean definitions over `List Char` (Python `str`
indexes by code point, so a list of characters is position-faithful) and
`ℚ` (the arithmetic the program performs on its amounts — division by 12,
multiplication by 100, rounding to 2 decimal places — is exact on the
decimal values the parser produces, and `ℚ` models it exactly).
Regular-expression matching is modelled by a small backtracking engine with
Python `re`'s leftmost-then-priority semantics.
-/

namespace ScanLbc

/-- The non-breaking space U+00A0, which the scraper treats as a thousands
separator and Python treats as whitespace. -/
def nbspChar : Char := Char.ofNat 160

/-- The regex class `[0-9]` (also the only digits `str.isdigit` sees in this
program, since every string it is applied to is an ASCII amount capture). -/
def isDig (c : Char) : Bool := '0' ≤ c && c ≤ '9'

/-- Python whitespace: the characters matched by `\s` in a `str` pattern and
stripped by `str.strip()`.  The two sets coincide on every code point this
program can meet; the exotic Unicode space blocks are included for fidelity. -/
def isPySpace (c : Char) : Bool :=
  c = ' ' || c = '\t' || c = '\n' || c = '\r' ||
  c = Char.ofNat 11 || c = Char.ofNat 12 ||
  c = Char.ofNat 28 || c = Char.ofNat 29 || c = Char.ofNat 30 || c = Char.ofNat 31 ||
  c = Char.ofNat 133 || c = nbspChar ||
  c = Char.ofNat 0x1680 ||
  (Char.ofNat 0x2000 ≤ c && c ≤ Char.ofNat 0x200A) ||
  c = Char.ofNat 0x2028 || c = Char.ofNat 0x2029 || c = Char.ofNat 0x202F ||
  c = Char.ofNat 0x205F || c = Char.ofNat 0x3000

/-- Python `str.lower()`, restricted to the alphabets that can occur in the
scraper's keywords and listing texts: ASCII letters plus the accented capitals
of French.  Every keyword the program lowercases is already lower case, so
only this subset is ever exercised. -/
def charLower (c : Char) : Char :=
  if 'A' ≤ c && c ≤ 'Z' then Char.ofNat (c.toNat + 32)
  else if c = 'À' then 'à' else if c = 'Â' then 'â' else if c = 'Ç' then 'ç'
  else if c = 'È' then 'è' else if c = 'É' then 'é' else if c = 'Ê' then 'ê'
  else if c = 'Ë' then 'ë' else if c = 'Î' then 'î' else if c = 'Ï' then 'ï'
  else if c = 'Ô' then 'ô' else if c = 'Û' then 'û' else if c = 'Ù' then 'ù'
  else c

/-- `str.lower()` on a whole text. -/
def toLowerL (cs : List Char) : List Char := cs.map charLower

/-- String literal to character list. -/
def strL (s : String) : List Char := s.toList

/-- Does `hay` start with `needle`? -/
def startsWithL : List Char → List Char → Bool
  | _, [] => true
  | [], _ :: _ => false
  | h :: hs, n :: ns => h = n && startsWithL hs ns

/-- Python's `needle in hay` substring test. -/
def containsSub : List Char → List Char → Bool
  | [], needle => startsWithL [] needle
  | c :: t, needle => startsWithL (c :: t) needle || containsSub t needle

/-- Bounded scan behind `findSubFrom`. -/
def findSubAux (hay needle : List Char) : ℕ → ℕ → Option ℕ
  | _, 0 => none
  | start, fuel + 1 =>
    if startsWithL (hay.drop start) needle then some start
    else findSubAux hay needle (start + 1) fuel

/-- Python `hay.find(needle, start)`, with `none` for `-1`. -/
def findSubFrom (hay needle : List Char) (start : ℕ) : Option ℕ :=
  if start ≤ hay.length then findSubAux hay needle start (hay.length + 1 - start) else none

/-- Python slice `text[a:b]` for natural bounds (negative indices never arise:
the callers clamp with `max(0, ·)`, which is ℕ subtraction here). -/
def sliceL (cs : List Char) (a b : ℕ) : List Char := (cs.drop a).take (b - a)

/-- Index of the last occurrence of `c`, `str.rfind` with `none` for `-1`. -/
def lastIdx (c : Char) : List Char → Option ℕ
  | [] => none
  | x :: xs =>
    match lastIdx c xs with
    | some i => some (i + 1)
    | none => if x = c then some 0 else none

/-- `-1`-style view of `lastIdx`, for the `last_comma > last_dot` comparison. -/
def idxZ : Option ℕ → ℤ
  | none => -1
  | some i => (i : ℤ)

/-- The helper `digits_after(s, pos)` of `parse_amount`: the number of
consecutive digits immediately after position `pos`. -/
def digitsAfterIdx (v : List Char) (pos : ℕ) : ℕ :=
  ((v.drop (pos + 1)).takeWhile isDig).length

/-- Remove every occurrence of the listed characters — the composition of the
`str.replace(sep, '')` calls in `parse_amount`. -/
def removeChars (cs : List Char) (bad : List Char) : List Char :=
  cs.filter (fun c => !bad.contains c)

/-- Numeric value of a digit character. -/
def digitVal (c : Char) : ℕ := c.toNat - 48

/-- Value of a string of decimal digits. -/
def natValDigits (ds : List Char) : ℕ := ds.foldl (fun a c => a * 10 + digitVal c) 0

/-- Python `str.strip()` with no arguments. -/
def pyStrip (cs : List Char) : List Char :=
  ((cs.dropWhile isPySpace).reverse.dropWhile isPySpace).reverse

/-- Python `float(v)` on the literals reachable in this program.  After
`parse_amount`'s cleaning the string consists of decimal digits and dots
only (the amount regexes capture neither signs, exponents, underscores nor
the words accepted as infinities), so the model covers exactly the unsigned
forms `d+`, `d+.d*` and `.d+`, stripping surrounding whitespace as `float`
does; every other string raises in Python and is `none` here. -/
def pyFloat (cs : List Char) : Option ℚ :=
  let v := pyStrip cs
  let intPart := v.takeWhile isDig
  let rest := v.drop intPart.length
  match rest with
  | [] => if intPart.isEmpty then none else some ((natValDigits intPart : ℚ))
  | '.' :: frac =>
    if frac.all isDig && (!intPart.isEmpty || !frac.isEmpty) then
      some ((natValDigits intPart : ℚ) + (natValDigits frac : ℚ) / 10 ^ frac.length)
    else none
  | _ => none

/-- Faithful translation of `parse_amount` (scan_lbc.py lines 238-300):
strip, turn non-breaking spaces into spaces, locate the rightmost comma and
dot, decide the decimal separator by the count of digits directly after the
rightmost of the two, clean, and convert with `float`. -/
def parse_amount (raw : List Char) : Option ℚ :=
  let v0 := pyStrip raw
  let v := v0.map (fun c => if c = nbspChar then ' ' else c)
  if v.contains ',' || v.contains '.' then
    let lastComma := lastIdx ',' v
    let lastDot := lastIdx '.' v
    let commaDigits := match lastComma with | some i => digitsAfterIdx v i | none => 0
    let dotDigits := match lastDot with | some i => digitsAfterIdx v i | none => 0
    if idxZ lastComma > idxZ lastDot then
      if 1 ≤ commaDigits && commaDigits ≤ 2 then
        pyFloat ((removeChars v [' ', '.']).map (fun c => if c = ',' then '.' else c))
      else pyFloat (removeChars v [' ', ',', '.'])
    else
      if 1 ≤ dotDigits && dotDigits ≤ 2 then
        pyFloat (removeChars v [' ', ','])
      else pyFloat (removeChars v [' ', ',', '.'])
  else pyFloat (removeChars v [' '])

/-- The two rent periods; Python's `None` result is `Option.none`. -/
inductive Period
  | monthly
  | annual
deriving DecidableEq

/-- Faithful translation of `detect_period_from_snippet` (lines 303-309).
Python's first condition parses, by `or`/`and` precedence, as
`("par mois" in s) or ("/mois" in s) or ("€/mois" in s) or
 ("mois" in s and "par an" not in s)` — so the monthly markers are decided
before the annual ones, and `"par an"` is tested twice in the second. -/
def detect_period_from_snippet (snippet : List Char) : Option Period :=
  let s := toLowerL snippet
  if containsSub s (strL ("par mois")) || containsSub s (strL ("/mois")) ||
      containsSub s (strL ("€/mois")) ||
      (containsSub s (strL ("mois")) && !containsSub s (strL ("par an"))) then
    some Period.monthly
  else if containsSub s (strL ("par an")) || containsSub s (strL ("/an")) ||
      containsSub s (strL ("annuel")) || containsSub s (strL ("par an")) then
    some Period.annual
  else none

/-- Abstract syntax of the regular-expression fragment the scraper uses:
character classes, concatenation, alternation, greedy (`starG`) and lazy
(`starL`) Kleene stars, and a single capture group. -/
inductive RE
  | cls (p : Char → Bool)
  | eps
  | cat (a b : RE)
  | alt (a b : RE)
  | starG (r : RE)
  | starL (r : RE)
  | group (r : RE)

/-- Greedy star iteration: given the body's matcher, list the ways of
chaining it zero or more times, longest chains first (the preference order of
a greedy `*`), refusing empty body matches (no star body in the scraper's
patterns can match empty) and bounding the chain length by the fuel. -/
def starRunG (body : List Char → List (ℕ × Option (List Char))) :
    ℕ → List Char → List (ℕ × Option (List Char))
  | 0, _ => [(0, none)]
  | fuel + 1, cs =>
    ((body cs).flatMap (fun x =>
      if x.1 = 0 then [] else
        (starRunG body fuel (cs.drop x.1)).map
          (fun y => (x.1 + y.1, x.2 <|> y.2)))) ++ [(0, none)]

/-- Lazy star iteration: shortest chains first (the preference of `*?`). -/
def starRunL (body : List Char → List (ℕ × Option (List Char))) :
    ℕ → List Char → List (ℕ × Option (List Char))
  | 0, _ => [(0, none)]
  | fuel + 1, cs =>
    (0, none) :: (body cs).flatMap (fun x =>
      if x.1 = 0 then [] else
        (starRunL body fuel (cs.drop x.1)).map
          (fun y => (x.1 + y.1, x.2 <|> y.2)))

/-- Backtracking matcher.  `runRE r fuel cs` lists every way `r` can match a
prefix of `cs`, as (consumed length, capture of the group), in the preference
order of Python's backtracking `re` engine: left alternative first, greedy
star longest first, lazy star shortest first.  `re.search` takes the head of
this list at the leftmost position where it is nonempty.  The fuel bounds
star iteration counts; since every star body in the scraper's patterns
consumes at least one character, fuel `cs.length + 1` is never exhausted. -/
def runRE : RE → ℕ → List Char → List (ℕ × Option (List Char))
  | RE.cls p, _, cs =>
    match cs with
    | [] => []
    | c :: _ => if p c then [(1, none)] else []
  | RE.eps, _, _ => [(0, none)]
  | RE.cat a b, fuel, cs =>
    (runRE a fuel cs).flatMap (fun x =>
      (runRE b fuel (cs.drop x.1)).map (fun y => (x.1 + y.1, x.2 <|> y.2)))
  | RE.alt a b, fuel, cs => runRE a fuel cs ++ runRE b fuel cs
  | RE.starG r, fuel, cs => starRunG (fun cs2 => runRE r fuel cs2) fuel cs
  | RE.starL r, fuel, cs => starRunL (fun cs2 => runRE r fuel cs2) fuel cs
  | RE.group r, fuel, cs =>
    (runRE r fuel cs).map (fun x => (x.1, some (cs.take x.1)))

/-- Scan for the leftmost position where the pattern matches. -/
def searchFromAux (r : RE) (cs : List Char) : ℕ → ℕ → Option (ℕ × ℕ × Option (List Char))
  | _, 0 => none
  | i, fuel + 1 =>
    match (runRE r (cs.length + 1) (cs.drop i)).head? with
    | some x => some (i, i + x.1, x.2)
    | none => searchFromAux r cs (i + 1) fuel

/-- Python `pattern.search(cs)`: `(m.start(), m.end(), m.group(1))` of the
leftmost match, in the engine's preference order. -/
def reSearch (r : RE) (cs : List Char) : Option (ℕ × ℕ × Option (List Char)) :=
  searchFromAux r cs 0 (cs.length + 1)

/-- A single literal character. -/
def chrRE (c : Char) : RE := RE.cls (fun x => x = c)

/-- A literal string. -/
def litRE (s : String) : RE := s.toList.foldr (fun c r => RE.cat (chrRE c) r) RE.eps

/-- Concatenation of a list of patterns. -/
def catL (rs : List RE) : RE := rs.foldr RE.cat RE.eps

/-- Greedy `r?`. -/
def optG (r : RE) : RE := RE.alt r RE.eps

/-- Greedy `r+`. -/
def plusG (r : RE) : RE := RE.cat r (RE.starG r)

/-- `[0-9]`. -/
def digRE : RE := RE.cls isDig

/-- `\s` (the Unicode-aware class of a `str` pattern). -/
def wsRE : RE := RE.cls isPySpace

/-- The thousands-separator class `[  \.,]` of `AMOUNT_RE`. -/
def sepRE : RE := RE.cls (fun c => c = ' ' || c = nbspChar || c = '.' || c = ',')

/-- The decimal-separator class `[\.,]`. -/
def decSepRE : RE := RE.cls (fun c => c = '.' || c = ',')

/-- `[0-9]{1,3}` (greedy: three digits preferred). -/
def dig13RE : RE := RE.cat digRE (optG (RE.cat digRE (optG digRE)))

/-- `[0-9]{3}`. -/
def dig3RE : RE := RE.cat digRE (RE.cat digRE digRE)

/-- The capture body shared by every amount pattern:
`[0-9]{1,3}(?:[  \.,][0-9]{3})*(?:[\.,][0-9]+)?`. -/
def amountCoreRE : RE :=
  RE.cat dig13RE
    (RE.cat (RE.starG (RE.cat sepRE dig3RE))
      (optG (RE.cat decSepRE (plusG digRE))))

/-- `(?:€|euros?)`. -/
def currencyRE : RE := RE.alt (chrRE '€') (RE.cat (litRE ("euro")) (optG (chrRE 's')))

/-- `AMOUNT_RE` (scan_lbc.py line 47): `(amount)\s*(?:€|euros?)`. -/
def amountRE : RE :=
  catL [RE.group amountCoreRE, RE.starG wsRE, currencyRE]

/-- `re.finditer(r, cs)` group-1 captures: repeated leftmost search, the next
scan starting at the previous match's end. -/
def finditerGroups (r : RE) : ℕ → List Char → List (Option (List Char))
  | 0, _ => []
  | fuel + 1, cs =>
    match reSearch r cs with
    | none => []
    | some (s, e, g) => g :: finditerGroups r fuel (cs.drop (max e (s + 1)))

/-- The snippet `parse_amounts_near_keyword` builds for a keyword occurrence
at `idx`: `text[idx : idx+len(kw)+50]` when strict, the window
`text[max(0, idx-300) : idx+300]` otherwise (ℕ subtraction is the clamp). -/
def snippetAt (text kw : List Char) (strict : Bool) (idx : ℕ) : List Char :=
  if strict then sliceL text idx (idx + kw.length + 50)
  else sliceL text (idx - 300) (idx + 300)

/-- Loop body of `parse_amounts_near_keyword` (lines 199-235), with the
cursor `start` and the remaining iteration budget explicit.  Each find of
the keyword strictly advances the cursor, and the cursor is bounded by the
text length, so a budget of `text.length + 2` makes the bounded loop equal
to Python's unbounded `while True`. -/
def pankAux (text kw : List Char) (strict : Bool) : ℕ → ℕ → Option (Option ℚ × List Char)
  | _, 0 => none
  | start, fuel + 1 =>
    match findSubFrom (toLowerL text) (toLowerL kw) start with
    | none => none
    | some idx =>
      let snippet := snippetAt text kw strict idx
      match reSearch amountRE (snippet.drop kw.length) with
      | some m => some (parse_amount (m.2.2.getD []), snippet)
      | none => pankAux text kw strict (idx + 1) fuel

/-- Faithful translation of `parse_amounts_near_keyword`.  `none` models the
Python return `(None, None)`; `some (a?, snippet)` models returning from an
occurrence whose snippet matched `AMOUNT_RE`, where `a?` is `none` exactly
when `parse_amount` failed on the captured text. -/
def parse_amounts_near_keyword (text kw : List Char) (strict : Bool) :
    Option (Option ℚ × List Char) :=
  pankAux text kw strict 0 (text.length + 2)

/-! The six rent patterns of `parse_ad_page` (lines 364-447), compiled with
`re.IGNORECASE`; matching the lowercased text is equivalent because every
literal in them is lower case. -/

/-- Pattern 1: `loyer\s+annuel\s*:?\s*(amount)\s*(?:€|euros?)`. -/
def rentP1 : RE :=
  catL [litRE ("loyer"), plusG wsRE, litRE ("annuel"), RE.starG wsRE,
    optG (chrRE ':'), RE.starG wsRE, RE.group amountCoreRE, RE.starG wsRE, currencyRE]

/-- Pattern 2: `loyer\s+mensuel\s+de\s+(amount)` — no currency sign required. -/
def rentP2 : RE :=
  catL [litRE ("loyer"), plusG wsRE, litRE ("mensuel"), plusG wsRE, litRE ("de"),
    plusG wsRE, RE.group amountCoreRE]

/-- Pattern 3: `loyer[^0-9]*(amount)\s*€\s*(?:/\s*an|par\s+an)`. -/
def rentP3 : RE :=
  catL [litRE ("loyer"), RE.starG (RE.cls (fun c => !isDig c)), RE.group amountCoreRE,
    RE.starG wsRE, chrRE '€', RE.starG wsRE,
    RE.alt (catL [chrRE '/', RE.starG wsRE, litRE ("an")])
      (catL [litRE ("par"), plusG wsRE, litRE ("an")])]

/-- Pattern 4: `loyer[^0-9]*(amount)\s*€`. -/
def rentP4 : RE :=
  catL [litRE ("loyer"), RE.starG (RE.cls (fun c => !isDig c)), RE.group amountCoreRE,
    RE.starG wsRE, chrRE '€']

/-- Pattern 5: `loyer\s+(amount)\s+euros?`. -/
def rentP5 : RE :=
  catL [litRE ("loyer"), plusG wsRE, RE.group amountCoreRE, plusG wsRE,
    litRE ("euro"), optG (chrRE 's')]

/-- Pattern 6 (`re.DOTALL`): `soit\s+.*?(amount)\s*euros?\s+par\s+mois`. -/
def rentP6 : RE :=
  catL [litRE ("soit"), plusG wsRE, RE.starL (RE.cls (fun _ => true)),
    RE.group amountCoreRE, RE.starG wsRE, litRE ("euro"), optG (chrRE 's'),
    plusG wsRE, litRE ("par"), plusG wsRE, litRE ("mois")]

/-- Rule 1 of the rent cascade: annual rent after `loyer annuel`, gated by the
annual plausibility range [3600, 36000] (with Python's truthiness test
`loyer and …`), divided by 12. -/
def rentRule1 (t : List Char) : Option ℚ :=
  match reSearch rentP1 (toLowerL t) with
  | some m =>
    match parse_amount (m.2.2.getD []) with
    | some loyer =>
      if loyer ≠ 0 ∧ 3600 ≤ loyer ∧ loyer ≤ 36000 then some (loyer / 12) else none
    | none => none
  | none => none

/-- Rule 2: monthly rent after `loyer mensuel de`, gated by [300, 3000]. -/
def rentRule2 (t : List Char) : Option ℚ :=
  match reSearch rentP2 (toLowerL t) with
  | some m =>
    match parse_amount (m.2.2.getD []) with
    | some loyer =>
      if loyer ≠ 0 ∧ 300 ≤ loyer ∧ loyer ≤ 3000 then some loyer else none
    | none => none
  | none => none

/-- Rule 3: amount followed by `€ /an` or `€ par an`, annual range, / 12. -/
def rentRule3 (t : List Char) : Option ℚ :=
  match reSearch rentP3 (toLowerL t) with
  | some m =>
    match parse_amount (m.2.2.getD []) with
    | some loyer =>
      if loyer ≠ 0 ∧ 3600 ≤ loyer ∧ loyer ≤ 36000 then some (loyer / 12) else none
    | none => none
  | none => none

/-- Rule 4: generic `loyer … (amount) €`; the snippet
`combined_text[m.start() : m.end()+100]` decides annual (contains `annuel`,
`par an` or `/an` after lowering) versus monthly, with the matching range. -/
def rentRule4 (t : List Char) : Option ℚ :=
  let low := toLowerL t
  match reSearch rentP4 low with
  | some m =>
    let snippet := sliceL low m.1 (m.2.1 + 100)
    match parse_amount (m.2.2.getD []) with
    | some loyer =>
      if containsSub snippet (strL ("annuel")) || containsSub snippet (strL ("par an")) ||
          containsSub snippet (strL ("/an")) then
        if loyer ≠ 0 ∧ 3600 ≤ loyer ∧ loyer ≤ 36000 then some (loyer / 12) else none
      else
        if loyer ≠ 0 ∧ 300 ≤ loyer ∧ loyer ≤ 3000 then some loyer else none
    | none => none
  | none => none

/-- Rule 5: `loyer (amount) euros`, monthly range. -/
def rentRule5 (t : List Char) : Option ℚ :=
  match reSearch rentP5 (toLowerL t) with
  | some m =>
    match parse_amount (m.2.2.getD []) with
    | some loyer =>
      if loyer ≠ 0 ∧ 300 ≤ loyer ∧ loyer ≤ 3000 then some loyer else none
    | none => none
  | none => none

/-- Rule 6: `soit … (amount) euros par mois`, monthly range.  (The source's
extra `and m.group(1)` guard is vacuous: the group is mandatory and
nonempty whenever the pattern matches.) -/
def rentRule6 (t : List Char) : Option ℚ :=
  match reSearch rentP6 (toLowerL t) with
  | some m =>
    match parse_amount (m.2.2.getD []) with
    | some loyer =>
      if loyer ≠ 0 ∧ 300 ≤ loyer ∧ loyer ≤ 3000 then some loyer else none
    | none => none
  | none => none

/-- The rent cascade (lines 364-447): each later pattern is tried only while
`monthly_rent is None`, mirroring the sequential `if monthly_rent is None`
guards of the source. -/
def rentExtract (t : List Char) : Option ℚ :=
  let m1 := rentRule1 t
  let m2 := if m1.isSome then m1 else rentRule2 t
  let m3 := if m2.isSome then m2 else rentRule3 t
  let m4 := if m3.isSome then m3 else rentRule4 t
  let m5 := if m4.isSome then m4 else rentRule5 t
  if m5.isSome then m5 else rentRule6 t

/-- Charges pattern 1: `charges\s+(amount)\s*(?:€|euros?)`. -/
def chargesP1 : RE :=
  catL [litRE ("charges"), plusG wsRE, RE.group amountCoreRE, RE.starG wsRE, currencyRE]

/-- Charges pattern 2: `[+\s]?(amount)\s*€\s+de\s+charges`. -/
def chargesP2 : RE :=
  catL [optG (RE.cls (fun c => c = '+' || isPySpace c)), RE.group amountCoreRE,
    RE.starG wsRE, chrRE '€', plusG wsRE, litRE ("de"), plusG wsRE, litRE ("charges")]

/-- The keyword loop of charges pattern 3 (lines 472-476): strict searches in
order, stopping at the first whose amount is not `None`; after an exhausted
loop the variables keep the last search's result. -/
def chargesKwLoop (t : List Char) : List (List Char) → Option ℚ × Option (List Char)
  | [] => (none, none)
  | [kw] =>
    match parse_amounts_near_keyword t kw true with
    | none => (none, none)
    | some (v, s) => (v, some s)
  | kw :: rest =>
    match parse_amounts_near_keyword t kw true with
    | none => chargesKwLoop t rest
    | some (v, s) => if v.isSome then (v, some s) else chargesKwLoop t rest

/-- Charges extraction (lines 455-476): pattern 1, else pattern 2, else the
strict keyword loop.  Note that when pattern 1 or 2 matches, the result is
taken even if `parse_amount` fails on the capture — the `else` belongs to
the regex match, not to the parse. -/
def chargesExtract (t : List Char) : Option ℚ × Option (List Char) :=
  let low := toLowerL t
  match reSearch chargesP1 low with
  | some m => (parse_amount (m.2.2.getD []), some (sliceL t (m.1 - 50) (m.2.1 + 100)))
  | none =>
    match reSearch chargesP2 low with
    | some m => (parse_amount (m.2.2.getD []), some (sliceL t (m.1 - 50) (m.2.1 + 100)))
    | none =>
      chargesKwLoop t
        [strL ("charges locatives"), strL ("charges mensuel"),
          strL ("charge de copropriété"), strL ("charges annuelles")]

/-- The primary property-tax search (line 450): a strict window after
`taxe fonci`. -/
def taxePrimary (t : List Char) : Option (Option ℚ × List Char) :=
  parse_amounts_near_keyword t (strL ("taxe fonci")) true

/-- Property-tax extraction (lines 449-452): the primary search, then — when
its amount is `None`, whether because no snippet matched or because the
capture failed to parse — the fallback strict search on `taxe foncière`,
whose result replaces both the amount and the snippet. -/
def taxeExtract (t : List Char) : Option ℚ × Option (List Char) :=
  let first : Option ℚ × Option (List Char) :=
    match taxePrimary t with
    | none => (none, none)
    | some (v, s) => (v, some s)
  if first.1.isSome then first
  else
    match parse_amounts_near_keyword t (strL ("taxe foncière")) true with
    | none => (none, none)
    | some (v, s) => (v, some s)

/-- A property-tax extractor with the fallback removed — the variant the
redundancy claim compares against; only the primary `taxe fonci` search. -/
def taxeExtractNoFallback (t : List Char) : Option ℚ × Option (List Char) :=
  match taxePrimary t with
  | none => (none, none)
  | some (v, s) => (v, some s)

/-- Python truthiness of an optional float: `None` and `0.0` are falsy. -/
def truthyQ : Option ℚ → Bool
  | none => false
  | some v => v != 0

/-- The price keyword loop (lines 348-352): lenient searches for
`prix de vente`, `prix`, `vente`, breaking on the first truthy amount; after
an exhausted loop the variable keeps the last search's amount (which can be
`0.0`, a falsy but non-`None` value). -/
def priceKwLoop (t : List Char) : List (List Char) → Option ℚ
  | [] => none
  | [kw] => (parse_amounts_near_keyword t kw false).bind (fun p => p.1)
  | kw :: rest =>
    let p := (parse_amounts_near_keyword t kw false).bind (fun p => p.1)
    if truthyQ p then p else priceKwLoop t rest

/-- Price extraction (lines 337-362).  `structured` is the price recovered
from the page's embedded `__NEXT_DATA__` JSON when present (the fetch-layer
glue around it — BeautifulSoup, `json.loads`, the `try/except` — is outside
the pure core).  Otherwise the keyword loop, and if that leaves `None`, the
fallback takes the maximum of every amount above 10000 in the whole text. -/
def priceExtract (t : List Char) (structured : Option ℚ) : Option ℚ :=
  match structured with
  | some p => some p
  | none =>
    match priceKwLoop t [strL ("prix de vente"), strL ("prix"), strL ("vente")] with
    | some v => some v
    | none =>
      let amounts := (finditerGroups amountRE (t.length + 2) t).filterMap
        (fun g =>
          match parse_amount (g.getD []) with
          | some v => if v ≠ 0 ∧ 10000 < v then some v else none
          | none => none)
      match amounts with
      | [] => none
      | x :: xs => some (xs.foldl max x)

/-- Round half to even, the behaviour of Python's `round` on an exactly
representable value (ties cannot be hit by the non-representable cases). -/
def rhe (q : ℚ) : ℤ :=
  let n := Rat.floor q
  let f := q - n
  if f < 1 / 2 then n
  else if 1 / 2 < f then n + 1
  else if n % 2 = 0 then n else n + 1

/-- Python `round(q, 2)`. -/
def round2 (q : ℚ) : ℚ := (rhe (q * 100) : ℚ) / 100

/-- The numeric fields of the record `parse_ad_page` returns (`url` and
`title` are I/O passthrough and carry no extracted number). -/
structure LbcRecord where
  price : Option ℚ
  monthly_rent : Option ℚ
  annual_rent : Option ℚ
  monthly_charges : Option ℚ
  annual_charges : Option ℚ
  taxe_fonciere_annual : Option ℚ
  gross_yield_pct : Option ℚ
  net_yield_pct : Option ℚ
deriving DecidableEq

/-- Result of the yield block (lines 498-518): the possibly reset rents, the
possibly zero-defaulted charges and tax, and the yields. -/
structure YieldOut where
  mr : Option ℚ
  ar : Option ℚ
  ac : Option ℚ
  tx : Option ℚ
  gy : Option ℚ
  ny : Option ℚ

/-- The yield block: when `price` and `annual_rent` are both truthy, the
gross yield is computed; above 20 % the rent detection is rejected (rents
and yield reset to `None`); otherwise missing `annual_charges` and
`taxe_annual` are replaced by `0.0` — the same variables later written into
the record — and the net yield is computed.  The `try/except` around the
block is dead under exact arithmetic: the division is guarded by truthiness. -/
def applyYield (price mr ar ac tx : Option ℚ) : YieldOut :=
  match price, ar with
  | some p, some a =>
    if p ≠ 0 ∧ a ≠ 0 then
      if 20 < a / p * 100 then
        { mr := none, ar := none, ac := ac, tx := tx, gy := none, ny := none }
      else
        { mr := mr, ar := some a, ac := some (ac.getD 0), tx := some (tx.getD 0),
          gy := some (a / p * 100), ny := some ((a - ac.getD 0 - tx.getD 0) / p * 100) }
    else { mr := mr, ar := ar, ac := ac, tx := tx, gy := none, ny := none }
  | _, _ => { mr := mr, ar := ar, ac := ac, tx := tx, gy := none, ny := none }

/-- The local `monthly_charges` of `parse_ad_page` (lines 480-485): the
extracted charge, divided by 12 when the snippet's period detects annual,
otherwise taken as monthly. -/
def monthlyChargesOf (t : List Char) : Option ℚ :=
  (chargesExtract t).1.map
    (fun c =>
      if detect_period_from_snippet ((chargesExtract t).2.getD []) = some Period.annual
      then c / 12 else c)

/-- The local `taxe_annual` of `parse_ad_page` (lines 487-492): the extracted
tax, multiplied by 12 when the snippet's period detects monthly. -/
def taxeAnnualOf (t : List Char) : Option ℚ :=
  (taxeExtract t).1.map
    (fun x =>
      if detect_period_from_snippet ((taxeExtract t).2.getD []) = some Period.monthly
      then x * 12 else x)

/-- The yield block applied to the extracted fields of the text: the variable
state after lines 494-518 of the source. -/
def coreYield (t : List Char) (structured : Option ℚ) : YieldOut :=
  applyYield (priceExtract t structured) (rentExtract t)
    ((rentExtract t).map (fun m => m * 12))
    ((monthlyChargesOf t).map (fun m => m * 12))
    (taxeAnnualOf t)

/-- The pure extraction core of `parse_ad_page` (lines 312-550).  `t` is the
combined text (`body + "\n" + page text` when a body was recovered);
`structured` is the JSON-island price.  Fetching, HTML stripping, `url` and
`title` handling are the I/O shell around this function.  The final
2-decimal rounding of lines 520-537 is applied to every numeric field. -/
def parse_ad_page (t : List Char) (structured : Option ℚ) : LbcRecord :=
  { price := (priceExtract t structured).map round2
    monthly_rent := (coreYield t structured).mr.map round2
    annual_rent := (coreYield t structured).ar.map round2
    monthly_charges := (monthlyChargesOf t).map round2
    annual_charges := (coreYield t structured).ac.map round2
    taxe_fonciere_annual := (coreYield t structured).tx.map round2
    gross_yield_pct := (coreYield t structured).gy.map round2
    net_yield_pct := (coreYield t structured).ny.map round2 }

/-! Specification-side definitions, written from the claims' wording, to be
compared against the translated source functions above. -/

/-- `needle` occurs as a contiguous substring of `hay` (the Prop reading of
Python's `in`). -/
def SubStr (needle hay : List Char) : Prop :=
  ∃ p q, hay = p ++ needle ++ q

/-- The keyword occurrences `parse_amounts_near_keyword`'s loop visits: the
find results from a cursor that restarts just past each occurrence's start. -/
def kwOccs (low lowkw : List Char) : ℕ → ℕ → List ℕ
  | _, 0 => []
  | start, fuel + 1 =>
    match findSubFrom low lowkw start with
    | none => []
    | some idx => idx :: kwOccs low lowkw (idx + 1) fuel

/-- The first `AMOUNT_RE` capture in the snippet of the occurrence at `idx`,
searched from `len(keyword)` characters into the snippet. -/
def amountMatchAt (text kw : List Char) (strict : Bool) (idx : ℕ) : Option (List Char) :=
  (reSearch amountRE ((snippetAt text kw strict idx).drop kw.length)).map
    (fun m => m.2.2.getD [])

/-- Modelled from the amended claim's wording: scan the keyword occurrences
left to right; at the first occurrence whose snippet contains an
`AMOUNT_RE` match, return that match's normalization (absent when the
normalization fails) with the snippet; skip occurrences whose snippets have
no match; absent when no occurrence's snippet matches. -/
def locateSpec (text kw : List Char) (strict : Bool) : Option (Option ℚ × List Char) :=
  (kwOccs (toLowerL text) (toLowerL kw) 0 (text.length + 2)).findSome?
    (fun idx => (amountMatchAt text kw strict idx).map
      (fun g => (parse_amount g, snippetAt text kw strict idx)))

/-- Interleave the thousands groups of an amount literal. -/
def flatGroups (gs : List (Char × List Char)) : List Char :=
  gs.flatMap (fun g => g.1 :: g.2)

/-- The optional decimal part of an amount literal. -/
def decPart : Option (Char × List Char) → List Char
  | none => []
  | some (s, ds) => s :: ds

/-- An amount literal of the `AMOUNT_RE` capture language: leading digits,
separator-prefixed three-digit groups, and an optional decimal separator
with trailing digits. -/
def renderAmount (lead : List Char) (gs : List (Char × List Char))
    (dec : Option (Char × List Char)) : List Char :=
  lead ++ flatGroups gs ++ decPart dec

/-- The separators of the thousands groups. -/
def groupSeps (gs : List (Char × List Char)) : List Char := gs.map Prod.fst

/-- The digits of the thousands groups, in order. -/
def groupDigits (gs : List (Char × List Char)) : List Char := gs.flatMap Prod.snd

/-- Well-formedness of an amount literal: nonempty all-digit lead, each group
a separator from `[  \.,]` followed by exactly three digits, and a decimal
part introduced by `.` or `,` with at least one digit. -/
def WFAmount (lead : List Char) (gs : List (Char × List Char))
    (dec : Option (Char × List Char)) : Prop :=
  lead ≠ [] ∧ (∀ c ∈ lead, isDig c = true) ∧
  (∀ g ∈ gs,
    (g.1 = ' ' ∨ g.1 = nbspChar ∨ g.1 = '.' ∨ g.1 = ',') ∧
      g.2.length = 3 ∧ ∀ c ∈ g.2, isDig c = true) ∧
  (∀ s ds, dec = some (s, ds) → (s = '.' ∨ s = ',') ∧ ds ≠ [] ∧ ∀ c ∈ ds, isDig c = true)

/-- Modelled from the amended claim's general rule: the rightmost separator
with 1 or 2 trailing digits is the decimal separator; separators of the
other kind and all spaces are removed as grouping, but when the decimal
separator's own character also appears among the group separators the
cleaning leaves two of them and normalization fails; with 3 or more trailing
digits every separator is removed and the value has no decimal part. -/
def expectedAmount (lead : List Char) (gs : List (Char × List Char))
    (dec : Option (Char × List Char)) : Option ℚ :=
  match dec with
  | some (s, ds) =>
    if 1 ≤ ds.length ∧ ds.length ≤ 2 then
      if (groupSeps gs).contains s then none
      else
        some ((natValDigits (lead ++ groupDigits gs) : ℚ) +
          (natValDigits ds : ℚ) / 10 ^ ds.length)
    else some ((natValDigits (lead ++ groupDigits gs ++ ds) : ℚ))
  | none => some ((natValDigits (lead ++ groupDigits gs) : ℚ))

/-! Rounding lemmas. -/

theorem rat_floor_eq (q : ℚ) : Rat.floor q = ⌊q⌋ := rfl

theorem rhe_bounds (q : ℚ) : q - 1 / 2 ≤ (rhe q : ℚ) ∧ (rhe q : ℚ) ≤ q + 1 / 2 := by
  have hle : (⌊q⌋ : ℚ) ≤ q := Int.floor_le q
  have hlt : q < (⌊q⌋ : ℚ) + 1 := Int.lt_floor_add_one q
  simp only [rhe, rat_floor_eq]
  split_ifs with h1 h2 h3 <;> constructor <;> push_cast <;> linarith

theorem round2_le_of_le_int (q : ℚ) (m : ℤ) (h : q ≤ (m : ℚ)) : round2 q ≤ (m : ℚ) := by
  have hb := (rhe_bounds (q * 100)).2
  have hi : (rhe (q * 100) : ℚ) < ((100 * m + 1 : ℤ) : ℚ) := by push_cast; linarith
  have hz : rhe (q * 100) ≤ 100 * m := by
    have := (by exact_mod_cast hi : rhe (q * 100) < 100 * m + 1)
    omega
  unfold round2
  rw [div_le_iff₀ (by norm_num : (0:ℚ) < 100)]
  calc (rhe (q * 100) : ℚ) ≤ ((100 * m : ℤ) : ℚ) := by exact_mod_cast hz
    _ = (m : ℚ) * 100 := by push_cast; ring

theorem int_le_round2 (q : ℚ) (m : ℤ) (h : (m : ℚ) ≤ q) : (m : ℚ) ≤ round2 q := by
  have hb := (rhe_bounds (q * 100)).1
  have hi : ((100 * m - 1 : ℤ) : ℚ) < (rhe (q * 100) : ℚ) := by push_cast; linarith
  have hz : 100 * m ≤ rhe (q * 100) := by
    have := (by exact_mod_cast hi : 100 * m - 1 < rhe (q * 100))
    omega
  unfold round2
  rw [le_div_iff₀ (by norm_num : (0:ℚ) < 100)]
  calc (m : ℚ) * 100 = ((100 * m : ℤ) : ℚ) := by push_cast; ring
    _ ≤ (rhe (q * 100) : ℚ) := by exact_mod_cast hz

theorem round2_nonneg (q : ℚ) (h : 0 ≤ q) : 0 ≤ round2 q := by
  have := int_le_round2 q 0 (by exact_mod_cast h)
  exact_mod_cast this

theorem round2_pos_of (q : ℚ) (h : 0 < round2 q) : 0 < q := by
  by_contra hc
  push_neg at hc
  have := round2_le_of_le_int q 0 (by exact_mod_cast hc)
  simp only [Int.cast_zero] at this
  linarith

/-! Plausibility ranges of the rent cascade. -/

theorem div12_range {x : ℚ} (h1 : 3600 ≤ x) (h2 : x ≤ 36000) :
    300 ≤ x / 12 ∧ x / 12 ≤ 3000 := by
  constructor
  · rw [le_div_iff₀ (by norm_num : (0:ℚ) < 12)]; linarith
  · rw [div_le_iff₀ (by norm_num : (0:ℚ) < 12)]; linarith

theorem rentRule1_range {t : List Char} {m : ℚ} (h : rentRule1 t = some m) :
    300 ≤ m ∧ m ≤ 3000 := by
  unfold rentRule1 at h
  split at h
  · split at h
    · split_ifs at h with hc
      · cases h
        exact div12_range hc.2.1 hc.2.2
    · cases h
  · cases h

theorem rentRule2_range {t : List Char} {m : ℚ} (h : rentRule2 t = some m) :
    300 ≤ m ∧ m ≤ 3000 := by
  unfold rentRule2 at h
  split at h
  · split at h
    · split_ifs at h with hc
      · cases h
        exact ⟨hc.2.1, hc.2.2⟩
    · cases h
  · cases h

theorem rentRule3_range {t : List Char} {m : ℚ} (h : rentRule3 t = some m) :
    300 ≤ m ∧ m ≤ 3000 := by
  unfold rentRule3 at h
  split at h
  · split at h
    · split_ifs at h with hc
      · cases h
        exact div12_range hc.2.1 hc.2.2
    · cases h
  · cases h

theorem rentRule4_range {t : List Char} {m : ℚ} (h : rentRule4 t = some m) :
    300 ≤ m ∧ m ≤ 3000 := by
  simp only [rentRule4] at h
  split at h
  · split at h
    · split_ifs at h with hsnip hc hc
      · cases h
        exact div12_range hc.2.1 hc.2.2
      · cases h
        exact ⟨hc.2.1, hc.2.2⟩
    · cases h
  · cases h

theorem rentRule5_range {t : List Char} {m : ℚ} (h : rentRule5 t = some m) :
    300 ≤ m ∧ m ≤ 3000 := by
  unfold rentRule5 at h
  split at h
  · split at h
    · split_ifs at h with hc
      · cases h
        exact ⟨hc.2.1, hc.2.2⟩
    · cases h
  · cases h

theorem rentRule6_range {t : List Char} {m : ℚ} (h : rentRule6 t = some m) :
    300 ≤ m ∧ m ≤ 3000 := by
  unfold rentRule6 at h
  split at h
  · split at h
    · split_ifs at h with hc
      · cases h
        exact ⟨hc.2.1, hc.2.2⟩
    · cases h
  · cases h

theorem ifIsSome_eq_orElse (a b : Option ℚ) : (if a.isSome then a else b) = (a <|> b) := by
  cases a <;> rfl

theorem rentExtract_eq_orElse_chain (t : List Char) :
    rentExtract t =
      (rentRule1 t <|> (rentRule2 t <|> (rentRule3 t <|>
        (rentRule4 t <|> (rentRule5 t <|> rentRule6 t))))) := by
  simp only [rentExtract]
  cases h1 : rentRule1 t <;> cases h2 : rentRule2 t <;> cases h3 : rentRule3 t <;>
    cases h4 : rentRule4 t <;> cases h5 : rentRule5 t <;> rfl

theorem rentExtract_range {t : List Char} {m : ℚ} (h : rentExtract t = some m) :
    300 ≤ m ∧ m ≤ 3000 := by
  rw [rentExtract_eq_orElse_chain] at h
  rcases h1 : rentRule1 t with _ | v <;> rw [h1] at h
  · rcases h2 : rentRule2 t with _ | v <;> rw [h2] at h
    · rcases h3 : rentRule3 t with _ | v <;> rw [h3] at h
      · rcases h4 : rentRule4 t with _ | v <;> rw [h4] at h
        · rcases h5 : rentRule5 t with _ | v <;> rw [h5] at h
          · simp only [Option.none_orElse] at h
            exact rentRule6_range h
          · simp only [Option.none_orElse, Option.some_orElse] at h
            cases h
            exact rentRule5_range h5
        · simp only [Option.none_orElse, Option.some_orElse] at h
          cases h
          exact rentRule4_range h4
      · simp only [Option.none_orElse, Option.some_orElse] at h
        cases h
        exact rentRule3_range h3
    · simp only [Option.none_orElse, Option.some_orElse] at h
      cases h
      exact rentRule2_range h2
  · simp only [Option.some_orElse] at h
    cases h
    exact rentRule1_range h1

/-! Pass-through facts about the yield block. -/

theorem applyYield_mr {price mr ar ac tx : Option ℚ} {m : ℚ}
    (h : (applyYield price mr ar ac tx).mr = some m) : mr = some m := by
  unfold applyYield at h
  split at h
  · split_ifs at h <;> first | exact h | exact Option.noConfusion h
  · exact h

theorem record_monthly_rent {t : List Char} {p0 : Option ℚ} {m : ℚ}
    (h : (parse_ad_page t p0).monthly_rent = some m) :
    ∃ m0, rentExtract t = some m0 ∧ m = round2 m0 ∧ (coreYield t p0).mr = some m0 := by
  simp only [parse_ad_page] at h
  rcases hy : (coreYield t p0).mr with _ | m0
  · rw [hy] at h
    cases h
  · rw [hy] at h
    simp only [Option.map_some'] at h
    have hy2 := hy
    unfold coreYield at hy2
    exact ⟨m0, applyYield_mr hy2, (Option.some_inj.mp h).symm, rfl⟩

/-- C6 : the rent extractor is the cascade of the six spec-ordered rules —
each later rule tried exactly when all earlier ones produced nothing, an
out-of-range value being discarded without short-circuiting — and every
extracted monthly rent, in the extractor and in the returned record, lies in
the plausibility range [300, 3000]. -/
theorem rent_cascade_order_and_range :
    (∀ t, rentExtract t =
      (rentRule1 t <|> (rentRule2 t <|> (rentRule3 t <|>
        (rentRule4 t <|> (rentRule5 t <|> rentRule6 t)))))) ∧
    (∀ t m, rentExtract t = some m → 300 ≤ m ∧ m ≤ 3000) ∧
    (∀ t p0 m, (parse_ad_page t p0).monthly_rent = some m → 300 ≤ m ∧ m ≤ 3000) := by
  refine ⟨rentExtract_eq_orElse_chain, fun t m h => rentExtract_range h, fun t p0 m h => ?_⟩
  obtain ⟨m0, hm0, rfl, -⟩ := record_monthly_rent h
  obtain ⟨hlo, hhi⟩ := rentExtract_range hm0
  constructor
  · exact_mod_cast int_le_round2 m0 300 (by exact_mod_cast hlo)
  · exact_mod_cast round2_le_of_le_int m0 3000 (by exact_mod_cast hhi)

/-- C2 : whenever a nonzero price and a rent are both extracted and the
computed gross yield `annual_rent / price * 100` exceeds 20, the returned
record has `monthly_rent`, `annual_rent`, `gross_yield_pct` and
`net_yield_pct` all absent; the record itself is still produced (the
extractor is total) with no error and no capped value. -/
theorem yield_rejection_resets_rent :
    ∀ t p0 p mr, priceExtract t p0 = some p → p ≠ 0 → rentExtract t = some mr →
      20 < mr * 12 / p * 100 →
      (parse_ad_page t p0).monthly_rent = none ∧ (parse_ad_page t p0).annual_rent = none ∧
      (parse_ad_page t p0).gross_yield_pct = none ∧ (parse_ad_page t p0).net_yield_pct = none := by
  intro t p0 p mr hp hp0 hr hg
  have h12 : mr * 12 ≠ 0 := by
    intro h0
    rw [h0] at hg
    simp only [zero_div, zero_mul] at hg
    linarith
  simp only [parse_ad_page, coreYield, hp, hr, Option.map_some', applyYield]
  rw [if_pos ⟨hp0, h12⟩, if_pos hg]
  exact ⟨rfl, rfl, rfl, rfl⟩

theorem applyYield_ar_some {price mr ar ac tx : Option ℚ} {a : ℚ}
    (h : (applyYield price mr ar ac tx).ar = some a) : ar = some a := by
  unfold applyYield at h
  split at h
  · split_ifs at h <;> first | exact h | exact Option.noConfusion h
  · exact h

theorem applyYield_gy_spec {price mr ar ac tx : Option ℚ} {g : ℚ}
    (h : (applyYield price mr ar ac tx).gy = some g) :
    ∃ p a, price = some p ∧ ar = some a ∧ g = a / p * 100 ∧ ¬ 20 < g := by
  cases price with
  | none =>
    unfold applyYield at h
    exact Option.noConfusion h
  | some p =>
    cases ar with
    | none =>
      unfold applyYield at h
      exact Option.noConfusion h
    | some a =>
      simp only [applyYield] at h
      split_ifs at h with h1 h2
      all_goals dsimp only at h
      all_goals first
        | exact Option.noConfusion h
        | (have hg := (Option.some_inj.mp h).symm
           exact ⟨p, a, rfl, rfl, hg, hg ▸ h2⟩)

theorem applyYield_accept (price mr ar ac tx : Option ℚ) (q a1 : ℚ)
    (hp : price = some q) (ha : ar = some a1) (hq : q ≠ 0) (ha1 : a1 ≠ 0)
    (har : (applyYield price mr ar ac tx).ar = some a1) :
    ¬ 20 < a1 / q * 100 ∧ (applyYield price mr ar ac tx).gy = some (a1 / q * 100) := by
  subst hp
  subst ha
  by_cases h20 : 20 < a1 / q * 100
  · exfalso
    have hnone : (applyYield (some q) mr (some a1) ac tx).ar = none := by
      simp only [applyYield]
      rw [if_pos ⟨hq, ha1⟩, if_pos h20]
    rw [hnone] at har
    exact Option.noConfusion har
  · refine ⟨h20, ?_⟩
    simp only [applyYield]
    rw [if_pos ⟨hq, ha1⟩, if_neg h20]

theorem record_annual_rent {t : List Char} {p0 : Option ℚ} {a : ℚ}
    (h : (parse_ad_page t p0).annual_rent = some a) :
    ∃ a0 mr0, a = round2 a0 ∧ rentExtract t = some mr0 ∧ a0 = mr0 * 12 ∧
      (coreYield t p0).ar = some a0 := by
  simp only [parse_ad_page] at h
  rcases hy : (coreYield t p0).ar with _ | a0
  · rw [hy] at h
    cases h
  · rw [hy] at h
    simp only [Option.map_some'] at h
    have hin : (rentExtract t).map (fun m => m * 12) = some a0 := by
      unfold coreYield at hy
      exact applyYield_ar_some hy
    rcases hmr : rentExtract t with _ | mr0
    · rw [hmr] at hin
      cases hin
    · rw [hmr] at hin
      simp only [Option.map_some'] at hin
      exact ⟨a0, mr0, (Option.some_inj.mp h).symm, rfl,
        (Option.some_inj.mp hin).symm, rfl⟩

/-- C1 (amended): no returned record ever has `gross_yield_pct > 20`; and
whenever the record's `price` is present and strictly positive and its
`annual_rent` is present, `gross_yield_pct` is present and is the 2-decimal
rounding of an unrounded gross yield lying in (0, 20] — so the recorded
value lies in [0, 20], the rounding reaching 0 exactly when the unrounded
yield is small enough (below 0.005) to round down to zero. -/
theorem gross_yield_range_amended :
    ∀ t p0,
      (∀ g, (parse_ad_page t p0).gross_yield_pct = some g → g ≤ 20) ∧
      (∀ p a, (parse_ad_page t p0).price = some p → 0 < p →
        (parse_ad_page t p0).annual_rent = some a →
        ∃ g0, 0 < g0 ∧ g0 ≤ 20 ∧
          (parse_ad_page t p0).gross_yield_pct = some (round2 g0) ∧
          0 ≤ round2 g0 ∧ round2 g0 ≤ 20) := by
  intro t p0
  constructor
  · intro g hg
    simp only [parse_ad_page] at hg
    rcases hy : (coreYield t p0).gy with _ | g0
    · rw [hy] at hg
      cases hg
    · rw [hy] at hg
      simp only [Option.map_some'] at hg
      unfold coreYield at hy
      obtain ⟨p, aa, hp, ha, hgval, hle⟩ := applyYield_gy_spec hy
      have hg0 : g0 ≤ 20 := not_lt.mp hle
      have hr2 : round2 g0 ≤ ((20 : ℤ) : ℚ) :=
        round2_le_of_le_int g0 20 (by exact_mod_cast hg0)
      rw [← Option.some_inj.mp hg]
      exact_mod_cast hr2
  · intro p a hp hppos ha
    simp only [parse_ad_page] at hp
    rcases hq : priceExtract t p0 with _ | q
    · rw [hq] at hp
      cases hp
    · rw [hq] at hp
      simp only [Option.map_some'] at hp
      have hpq : p = round2 q := (Option.some_inj.mp hp).symm
      have hqpos : 0 < q := round2_pos_of q (hpq ▸ hppos)
      obtain ⟨a0, mr0, ha0, hmr0, ha012, har⟩ := record_annual_rent ha
      obtain ⟨hmlo, _⟩ := rentExtract_range hmr0
      have ha0pos : 0 < a0 := by nlinarith [ha012, hmlo]
      have harX : (applyYield (priceExtract t p0) (rentExtract t)
          ((rentExtract t).map (fun m => m * 12))
          ((monthlyChargesOf t).map (fun m => m * 12)) (taxeAnnualOf t)).ar = some a0 := by
        unfold coreYield at har
        exact har
      obtain ⟨hle20, hgy⟩ := applyYield_accept (priceExtract t p0) (rentExtract t)
        ((rentExtract t).map (fun m => m * 12))
        ((monthlyChargesOf t).map (fun m => m * 12)) (taxeAnnualOf t) q a0 hq
        (by rw [hmr0]; simp only [Option.map_some']; rw [ha012])
        (ne_of_gt hqpos) (ne_of_gt ha0pos) harX
      refine ⟨a0 / q * 100, by positivity, not_lt.mp hle20, ?_, ?_, ?_⟩
      · simp only [parse_ad_page, coreYield, hgy, Option.map_some']
      · exact round2_nonneg _ (by positivity)
      · have := round2_le_of_le_int (a0 / q * 100) 20 (by exact_mod_cast not_lt.mp hle20)
        exact_mod_cast this

end ScanLbc

namespace ScanLbc

theorem applyYield_mr_ar {price mr ar ac tx : Option ℚ} {m : ℚ}
    (h : (applyYield price mr ar ac tx).mr = some m) :
    (applyYield price mr ar ac tx).ar = ar := by
  cases price with
  | none => simp only [applyYield]
  | some p =>
    cases ar with
    | none => simp only [applyYield]
    | some a =>
      simp only [applyYield] at h ⊢
      split_ifs at h ⊢ with h1 h2
      all_goals dsimp only at h ⊢
      all_goals first | rfl | exact Option.noConfusion h

theorem applyYield_ac_of_some (price mr ar ac tx : Option ℚ) (x : ℚ)
    (hac : ac = some x) : (applyYield price mr ar ac tx).ac = some x := by
  subst hac
  cases price with
  | none => simp only [applyYield]
  | some p =>
    cases ar with
    | none => simp only [applyYield]
    | some a =>
      simp only [applyYield]
      split_ifs <;> simp

theorem applyYield_ac_val {price mr ar ac tx : Option ℚ} {x : ℚ}
    (h : (applyYield price mr ar ac tx).ac = some x) : ac = some x ∨ x = 0 := by
  cases price with
  | none =>
    simp only [applyYield] at h
    exact Or.inl h
  | some p =>
    cases ar with
    | none =>
      simp only [applyYield] at h
      exact Or.inl h
    | some a =>
      simp only [applyYield] at h
      split_ifs at h
      · exact Or.inl h
      · cases ac with
        | none =>
          simp only [Option.getD_none] at h
          exact Or.inr (Option.some_inj.mp h).symm
        | some c =>
          simp only [Option.getD_some] at h
          exact Or.inl (by rw [Option.some_inj.mp h])
      · exact Or.inl h

theorem applyYield_tx_val {price mr ar ac tx : Option ℚ} {x : ℚ}
    (h : (applyYield price mr ar ac tx).tx = some x) : tx = some x ∨ x = 0 := by
  cases price with
  | none =>
    simp only [applyYield] at h
    exact Or.inl h
  | some p =>
    cases ar with
    | none =>
      simp only [applyYield] at h
      exact Or.inl h
    | some a =>
      simp only [applyYield] at h
      split_ifs at h
      · exact Or.inl h
      · cases tx with
        | none =>
          simp only [Option.getD_none] at h
          exact Or.inr (Option.some_inj.mp h).symm
        | some c =>
          simp only [Option.getD_some] at h
          exact Or.inl (by rw [Option.some_inj.mp h])
      · exact Or.inl h

theorem applyYield_gy_isSome {price mr ar ac tx : Option ℚ}
    (h : (applyYield price mr ar ac tx).gy.isSome) :
    (applyYield price mr ar ac tx).ac.isSome ∧ (applyYield price mr ar ac tx).tx.isSome := by
  cases price with
  | none =>
    simp only [applyYield, Option.isSome_none] at h
    exact Bool.noConfusion h
  | some p =>
    cases ar with
    | none =>
      simp only [applyYield, Option.isSome_none] at h
      exact Bool.noConfusion h
    | some a =>
      simp only [applyYield] at h ⊢
      split_ifs at h ⊢ <;> simp_all

/-- C3 (amended): whenever `monthly_rent` is present, `annual_rent` is
present and equals `round(m0 * 12, 2)` for the unrounded extracted monthly
rent `m0` (the stored `monthly_rent` being `round(m0, 2)`) — the annual
value is derived from the monthly one before rounding, so
`annual_rent == round(monthly_rent * 12, 2)` in terms of the stored,
rounded `monthly_rent` can fail for annual-sourced rents; symmetrically
`annual_charges` is derived as `round(c0 * 12, 2)` from the unrounded
monthly charge whenever `monthly_charges` is present. -/
theorem annual_rent_derived_amended :
    ∀ t p0,
      (∀ m, (parse_ad_page t p0).monthly_rent = some m →
        ∃ m0, rentExtract t = some m0 ∧ m = round2 m0 ∧
          (parse_ad_page t p0).annual_rent = some (round2 (m0 * 12))) ∧
      (∀ c, (parse_ad_page t p0).monthly_charges = some c →
        ∃ c0, monthlyChargesOf t = some c0 ∧ c = round2 c0 ∧
          (parse_ad_page t p0).annual_charges = some (round2 (c0 * 12))) := by
  intro t p0
  constructor
  · intro m hm
    obtain ⟨m0, hm0, hmr2, hymr⟩ := record_monthly_rent hm
    have har : (coreYield t p0).ar = (rentExtract t).map (fun m => m * 12) := by
      unfold coreYield at hymr ⊢
      exact applyYield_mr_ar hymr
    refine ⟨m0, hm0, hmr2, ?_⟩
    simp only [parse_ad_page, har, hm0, Option.map_some']
  · intro c hc
    simp only [parse_ad_page] at hc
    rcases hmc : monthlyChargesOf t with _ | c0
    · rw [hmc] at hc
      cases hc
    · rw [hmc] at hc
      simp only [Option.map_some'] at hc
      have hac : (coreYield t p0).ac = some (c0 * 12) := by
        unfold coreYield
        exact applyYield_ac_of_some _ _ _ _ _ (c0 * 12)
          (by rw [hmc]; simp only [Option.map_some'])
      refine ⟨c0, rfl, (Option.some_inj.mp hc).symm, ?_⟩
      simp only [parse_ad_page, hac, Option.map_some']

end ScanLbc

namespace ScanLbc

/-! Non-negativity: every amount the program parses is unsigned. -/

theorem pyFloat_nonneg {cs : List Char} {v : ℚ} (h : pyFloat cs = some v) : 0 ≤ v := by
  simp only [pyFloat] at h
  split at h
  all_goals try split_ifs at h
  all_goals first
    | exact Option.noConfusion h
    | (rw [← Option.some_inj.mp h]; positivity)

theorem parse_amount_nonneg {raw : List Char} {v : ℚ}
    (h : parse_amount raw = some v) : 0 ≤ v := by
  simp only [parse_amount] at h
  split_ifs at h <;> exact pyFloat_nonneg h

theorem pankAux_nonneg {text kw : List Char} {strict : Bool} :
    ∀ fuel start {v : ℚ} {s : List Char},
      pankAux text kw strict start fuel = some (some v, s) → 0 ≤ v := by
  intro fuel
  induction fuel with
  | zero =>
    intro start v s h
    exact Option.noConfusion h
  | succ fuel ih =>
    intro start v s h
    simp only [pankAux] at h
    split at h
    · exact Option.noConfusion h
    · split at h
      · have h1 := Option.some_inj.mp h
        have h2 : parse_amount _ = some v := congrArg Prod.fst h1
        exact parse_amount_nonneg h2
      · exact ih _ h

theorem pank_nonneg {text kw : List Char} {strict : Bool} {v : ℚ} {s : List Char}
    (h : parse_amounts_near_keyword text kw strict = some (some v, s)) : 0 ≤ v :=
  pankAux_nonneg _ _ h

theorem chargesKwLoop_nonneg {t : List Char} :
    ∀ kws {v : ℚ} {s : Option (List Char)},
      chargesKwLoop t kws = (some v, s) → 0 ≤ v := by
  intro kws
  induction kws with
  | nil =>
    intro v s h
    simp only [chargesKwLoop] at h
    exact Option.noConfusion (congrArg Prod.fst h)
  | cons kw rest ih =>
    cases rest with
    | nil =>
      intro v s h
      simp only [chargesKwLoop] at h
      split at h
      · exact Option.noConfusion (congrArg Prod.fst h)
      · rename_i pair heq
        have h1 := congrArg Prod.fst h
        simp only at h1
        subst h1
        exact pank_nonneg (by rw [heq])
    | cons kw2 rest2 =>
      intro v s h
      simp only [chargesKwLoop] at h
      split at h
      · exact ih h
      · rename_i pair heq
        split_ifs at h with hs
        · have h1 := congrArg Prod.fst h
          simp only at h1
          subst h1
          exact pank_nonneg (by rw [heq])
        · exact ih h

theorem chargesExtract_nonneg {t : List Char} {v : ℚ}
    (h : (chargesExtract t).1 = some v) : 0 ≤ v := by
  simp only [chargesExtract] at h
  split at h
  · exact parse_amount_nonneg h
  · split at h
    · exact parse_amount_nonneg h
    · rcases hpair : chargesKwLoop t
        [strL ("charges locatives"), strL ("charges mensuel"),
          strL ("charge de copropriété"), strL ("charges annuelles")] with ⟨cv, cs2⟩
      rw [hpair] at h
      simp only at h
      subst h
      exact chargesKwLoop_nonneg _ hpair

theorem taxeExtract_nonneg {t : List Char} {v : ℚ}
    (h : (taxeExtract t).1 = some v) : 0 ≤ v := by
  simp only [taxeExtract] at h
  split_ifs at h <;> split at h <;>
    first
      | exact Option.noConfusion h
      | (simp only at h
         subst h
         exact pank_nonneg (by assumption))

theorem priceKwLoop_nonneg {t : List Char} :
    ∀ kws {v : ℚ}, priceKwLoop t kws = some v → 0 ≤ v := by
  intro kws
  induction kws with
  | nil =>
    intro v h
    exact Option.noConfusion h
  | cons kw rest ih =>
    cases rest with
    | nil =>
      intro v h
      simp only [priceKwLoop] at h
      obtain ⟨⟨pv, ps⟩, hp, h1⟩ := Option.bind_eq_some.mp h
      simp only at h1
      subst h1
      exact pank_nonneg hp
    | cons kw2 rest2 =>
      intro v h
      simp only [priceKwLoop] at h
      split_ifs at h with ht
      · obtain ⟨⟨pv, ps⟩, hp, h1⟩ := Option.bind_eq_some.mp h
        simp only at h1
        subst h1
        exact pank_nonneg hp
      · exact ih h

theorem foldl_max_nonneg {xs : List ℚ} :
    ∀ {x : ℚ}, 0 ≤ x → (∀ y ∈ xs, 0 ≤ y) → 0 ≤ xs.foldl max x := by
  induction xs with
  | nil =>
    intro x hx _
    exact hx
  | cons y ys ih =>
    intro x hx hall
    simp only [List.foldl_cons]
    exact ih (le_max_of_le_left hx) (fun z hz => hall z (List.mem_cons_of_mem _ hz))

theorem priceExtract_nonneg {t : List Char} {p0 : Option ℚ} {v : ℚ}
    (h0 : ∀ q, p0 = some q → 0 ≤ q) (h : priceExtract t p0 = some v) : 0 ≤ v := by
  rcases p0 with _ | q
  · simp only [priceExtract] at h
    split at h
    · rename_i w hw
      rw [← Option.some_inj.mp h]
      exact priceKwLoop_nonneg _ hw
    · split at h
      · exact Option.noConfusion h
      · rename_i x xs hlist
        rw [← Option.some_inj.mp h]
        have hmem : ∀ y ∈ x :: xs, (0:ℚ) ≤ y := by
          rw [← hlist]
          intro y hy
          obtain ⟨g, _, hfg⟩ := List.mem_filterMap.mp hy
          split at hfg
          all_goals try split_ifs at hfg with hgate
          all_goals first
            | exact Option.noConfusion hfg
            | (rw [← Option.some_inj.mp hfg]
               linarith [hgate.2])
        exact foldl_max_nonneg (hmem x (List.mem_cons_self x xs))
          (fun y hy => hmem y (List.mem_cons_of_mem _ hy))
  · simp only [priceExtract] at h
    rw [← Option.some_inj.mp h]
    exact h0 q rfl

end ScanLbc

namespace ScanLbc

theorem monthlyChargesOf_nonneg {t : List Char} {v : ℚ}
    (h : monthlyChargesOf t = some v) : 0 ≤ v := by
  unfold monthlyChargesOf at h
  rcases hc : (chargesExtract t).1 with _ | c
  · rw [hc] at h
    cases h
  · rw [hc] at h
    simp only [Option.map_some'] at h
    have hc0 := chargesExtract_nonneg hc
    rw [← Option.some_inj.mp h]
    split_ifs
    · positivity
    · exact hc0

theorem taxeAnnualOf_nonneg {t : List Char} {v : ℚ}
    (h : taxeAnnualOf t = some v) : 0 ≤ v := by
  unfold taxeAnnualOf at h
  rcases hc : (taxeExtract t).1 with _ | c
  · rw [hc] at h
    cases h
  · rw [hc] at h
    simp only [Option.map_some'] at h
    have hc0 := taxeExtract_nonneg hc
    rw [← Option.some_inj.mp h]
    split_ifs
    · positivity
    · exact hc0

/-- C4 (amended): every monetary field of the returned record — `price`,
`monthly_rent`, `annual_rent`, `monthly_charges`, `annual_charges`,
`taxe_fonciere_annual` — is absent or non-negative, provided the structured
price, when the page supplies one, is non-negative; and the zero-defaulting
of missing `annual_charges`/`taxe_fonciere_annual` leaks into the returned
record: whenever `gross_yield_pct` is present, both fields are present
(the missing one as `0.0`) rather than staying absent. -/
theorem monetary_nonneg_amended :
    ∀ t p0, (∀ q, p0 = some q → 0 ≤ q) →
      (∀ v, (parse_ad_page t p0).price = some v → 0 ≤ v) ∧
      (∀ v, (parse_ad_page t p0).monthly_rent = some v → 0 ≤ v) ∧
      (∀ v, (parse_ad_page t p0).annual_rent = some v → 0 ≤ v) ∧
      (∀ v, (parse_ad_page t p0).monthly_charges = some v → 0 ≤ v) ∧
      (∀ v, (parse_ad_page t p0).annual_charges = some v → 0 ≤ v) ∧
      (∀ v, (parse_ad_page t p0).taxe_fonciere_annual = some v → 0 ≤ v) ∧
      ((parse_ad_page t p0).gross_yield_pct.isSome →
        (parse_ad_page t p0).annual_charges.isSome ∧
        (parse_ad_page t p0).taxe_fonciere_annual.isSome) := by
  intro t p0 h0
  refine ⟨?_, ?_, ?_, ?_, ?_, ?_, ?_⟩
  · intro v hv
    simp only [parse_ad_page] at hv
    rcases hq : priceExtract t p0 with _ | q
    · rw [hq] at hv
      cases hv
    · rw [hq] at hv
      simp only [Option.map_some'] at hv
      rw [← Option.some_inj.mp hv]
      exact round2_nonneg q (priceExtract_nonneg h0 hq)
  · intro v hv
    obtain ⟨m0, hm0, rfl, -⟩ := record_monthly_rent hv
    exact round2_nonneg m0 (by linarith [(rentExtract_range hm0).1])
  · intro v hv
    obtain ⟨a0, mr0, rfl, hmr0, ha012, -⟩ := record_annual_rent hv
    exact round2_nonneg a0 (by nlinarith [(rentExtract_range hmr0).1, ha012])
  · intro v hv
    simp only [parse_ad_page] at hv
    rcases hc : monthlyChargesOf t with _ | c
    · rw [hc] at hv
      cases hv
    · rw [hc] at hv
      simp only [Option.map_some'] at hv
      rw [← Option.some_inj.mp hv]
      exact round2_nonneg c (monthlyChargesOf_nonneg hc)
  · intro v hv
    simp only [parse_ad_page] at hv
    rcases hy : (coreYield t p0).ac with _ | x
    · rw [hy] at hv
      cases hv
    · rw [hy] at hv
      simp only [Option.map_some'] at hv
      rw [← Option.some_inj.mp hv]
      refine round2_nonneg x ?_
      unfold coreYield at hy
      rcases applyYield_ac_val hy with hin | rfl
      · rcases hc : monthlyChargesOf t with _ | c
        · rw [hc] at hin
          cases hin
        · rw [hc] at hin
          simp only [Option.map_some'] at hin
          have := monthlyChargesOf_nonneg hc
          nlinarith [Option.some_inj.mp hin]
      · exact le_refl 0
  · intro v hv
    simp only [parse_ad_page] at hv
    rcases hy : (coreYield t p0).tx with _ | x
    · rw [hy] at hv
      cases hv
    · rw [hy] at hv
      simp only [Option.map_some'] at hv
      rw [← Option.some_inj.mp hv]
      refine round2_nonneg x ?_
      unfold coreYield at hy
      rcases applyYield_tx_val hy with hin | rfl
      · exact taxeAnnualOf_nonneg hin
      · exact le_refl 0
  · intro hgy
    simp only [parse_ad_page, Option.isSome_map'] at hgy ⊢
    unfold coreYield at hgy ⊢
    exact applyYield_gy_isSome hgy

end ScanLbc

namespace ScanLbc

theorem startsWithL_iff (hay needle : List Char) :
    startsWithL hay needle = true ↔ ∃ rest, hay = needle ++ rest := by
  induction needle generalizing hay with
  | nil =>
    simp only [startsWithL, List.nil_append]
    exact ⟨fun _ => ⟨hay, rfl⟩, fun _ => trivial⟩
  | cons n ns ih =>
    cases hay with
    | nil =>
      simp only [startsWithL, List.cons_append]
      constructor
      · intro hfalse
        exact Bool.noConfusion hfalse
      · rintro ⟨rest, heq⟩
        exact List.noConfusion heq
    | cons h hs =>
      simp only [startsWithL, Bool.and_eq_true, decide_eq_true_eq, ih, List.cons_append]
      constructor
      · rintro ⟨rfl, rest, rfl⟩
        exact ⟨rest, rfl⟩
      · rintro ⟨rest, heq⟩
        injection heq with h1 h2
        exact ⟨h1, rest, h2⟩

theorem containsSub_iff (hay needle : List Char) :
    containsSub hay needle = true ↔ SubStr needle hay := by
  induction hay with
  | nil =>
    simp only [containsSub, startsWithL_iff, SubStr]
    constructor
    · rintro ⟨rest, heq⟩
      obtain ⟨rfl, rfl⟩ := List.append_eq_nil.mp heq.symm
      exact ⟨[], [], rfl⟩
    · rintro ⟨p, q, heq⟩
      obtain ⟨h1, rfl⟩ := List.append_eq_nil.mp heq.symm
      obtain ⟨rfl, rfl⟩ := List.append_eq_nil.mp h1
      exact ⟨[], rfl⟩
  | cons c t ih =>
    simp only [containsSub, Bool.or_eq_true, startsWithL_iff, ih, SubStr]
    constructor
    · rintro (⟨rest, heq⟩ | ⟨p, q, heq⟩)
      · exact ⟨[], rest, by simpa using heq⟩
      · exact ⟨c :: p, q, by rw [heq]; rfl⟩
    · rintro ⟨p, q, heq⟩
      cases p with
      | nil => exact Or.inl ⟨q, by simpa using heq⟩
      | cons pc pt =>
        injection heq with h1 h2
        exact Or.inr ⟨pt, q, h2⟩

theorem substr_slash_mois_of_euro {L : List Char}
    (h : SubStr (strL ("€/mois")) L) : SubStr (strL ("/mois")) L := by
  obtain ⟨p, q, heq⟩ := h
  exact ⟨p ++ ['€'], q, by
    rw [heq]
    simp only [List.append_assoc]
    rfl⟩

theorem monthlyCond_iff (L : List Char) :
    (containsSub L (strL ("par mois")) || containsSub L (strL ("/mois")) ||
        containsSub L (strL ("€/mois")) ||
        (containsSub L (strL ("mois")) && !containsSub L (strL ("par an")))) = true ↔
      (SubStr (strL ("par mois")) L ∨ SubStr (strL ("/mois")) L ∨
        (SubStr (strL ("mois")) L ∧ ¬ SubStr (strL ("par an")) L)) := by
  simp only [Bool.or_eq_true, Bool.and_eq_true, Bool.not_eq_true',
    ← Bool.not_eq_true, containsSub_iff]
  constructor
  · rintro (((h | h) | h) | ⟨h1, h2⟩)
    · exact Or.inl h
    · exact Or.inr (Or.inl h)
    · exact Or.inr (Or.inl (substr_slash_mois_of_euro h))
    · exact Or.inr (Or.inr ⟨h1, h2⟩)
  · rintro (h | h | ⟨h1, h2⟩)
    · exact Or.inl (Or.inl (Or.inl h))
    · exact Or.inl (Or.inl (Or.inr h))
    · exact Or.inr ⟨h1, h2⟩

theorem annualCond_iff (L : List Char) :
    (containsSub L (strL ("par an")) || containsSub L (strL ("/an")) ||
        containsSub L (strL ("annuel")) || containsSub L (strL ("par an"))) = true ↔
      (SubStr (strL ("par an")) L ∨ SubStr (strL ("/an")) L ∨
        SubStr (strL ("annuel")) L) := by
  simp only [Bool.or_eq_true, containsSub_iff]
  constructor
  · rintro (((h | h) | h) | h)
    · exact Or.inl h
    · exact Or.inr (Or.inl h)
    · exact Or.inr (Or.inr h)
    · exact Or.inl h
  · rintro (h | h | h)
    · exact Or.inl (Or.inl (Or.inl h))
    · exact Or.inl (Or.inl (Or.inr h))
    · exact Or.inl (Or.inr h)

/-- C5 (amended): the period detector lower-cases the snippet and decides the
MONTHLY markers first: it returns monthly when the lowered snippet contains
`par mois` or `/mois` (the source also lists the redundant `€/mois`), or
contains `mois` without `par an`; only otherwise does it return annual when
the snippet contains `par an`, `/an` or `annuel`; else unknown.  A snippet
containing both a monthly marker such as `par mois` and an annual marker
such as `annuel` is therefore classified monthly, not annual. -/
theorem detect_period_characterization :
    ∀ s,
      (detect_period_from_snippet s = some Period.monthly ↔
        (SubStr (strL ("par mois")) (toLowerL s) ∨ SubStr (strL ("/mois")) (toLowerL s) ∨
          (SubStr (strL ("mois")) (toLowerL s) ∧ ¬ SubStr (strL ("par an")) (toLowerL s)))) ∧
      (detect_period_from_snippet s = some Period.annual ↔
        (¬ (SubStr (strL ("par mois")) (toLowerL s) ∨ SubStr (strL ("/mois")) (toLowerL s) ∨
            (SubStr (strL ("mois")) (toLowerL s) ∧ ¬ SubStr (strL ("par an")) (toLowerL s))) ∧
          (SubStr (strL ("par an")) (toLowerL s) ∨ SubStr (strL ("/an")) (toLowerL s) ∨
            SubStr (strL ("annuel")) (toLowerL s)))) ∧
      (detect_period_from_snippet s = none ↔
        (¬ (SubStr (strL ("par mois")) (toLowerL s) ∨ SubStr (strL ("/mois")) (toLowerL s) ∨
            (SubStr (strL ("mois")) (toLowerL s) ∧ ¬ SubStr (strL ("par an")) (toLowerL s))) ∧
          ¬ (SubStr (strL ("par an")) (toLowerL s) ∨ SubStr (strL ("/an")) (toLowerL s) ∨
            SubStr (strL ("annuel")) (toLowerL s)))) := by
  intro s
  simp only [detect_period_from_snippet]
  split_ifs with h1 h2
  · rw [monthlyCond_iff] at h1
    refine ⟨?_, ?_, ?_⟩ <;> constructor <;> intro hh <;>
      first
        | rfl
        | exact h1
        | exact hh.elim
        | exact Option.noConfusion hh
        | exact Period.noConfusion (Option.some_inj.mp hh)
        | exact absurd h1 hh.1
  · rw [monthlyCond_iff] at h1
    rw [annualCond_iff] at h2
    refine ⟨?_, ?_, ?_⟩ <;> constructor <;> intro hh <;>
      first
        | rfl
        | exact ⟨h1, h2⟩
        | exact hh.elim
        | exact Option.noConfusion hh
        | exact Period.noConfusion (Option.some_inj.mp hh)
        | exact absurd hh h1
        | exact absurd h2 hh.2
  · rw [monthlyCond_iff] at h1
    rw [annualCond_iff] at h2
    refine ⟨?_, ?_, ?_⟩ <;> constructor <;> intro hh <;>
      first
        | rfl
        | exact ⟨h1, h2⟩
        | exact hh.elim
        | exact Option.noConfusion hh
        | exact absurd hh h1
        | exact absurd hh.2 h2

end ScanLbc

namespace ScanLbc

theorem pankAux_eq_locate (text kw : List Char) (strict : Bool) :
    ∀ fuel start,
      pankAux text kw strict start fuel =
        (kwOccs (toLowerL text) (toLowerL kw) start fuel).findSome?
          (fun idx => (amountMatchAt text kw strict idx).map
            (fun g => (parse_amount g, snippetAt text kw strict idx))) := by
  intro fuel
  induction fuel with
  | zero =>
    intro start
    rfl
  | succ fuel ih =>
    intro start
    simp only [pankAux, kwOccs]
    cases hf : findSubFrom (toLowerL text) (toLowerL kw) start with
    | none => rfl
    | some idx =>
      simp only [List.findSome?]
      cases hm : reSearch amountRE ((snippetAt text kw strict idx).drop kw.length) with
      | none =>
        simp only [amountMatchAt, hm, Option.map_none']
        exact ih (idx + 1)
      | some m =>
        simp only [amountMatchAt, hm, Option.map_some']

/-- C9 (amended): the keyword-window search scans occurrences left to right
and stops at the FIRST occurrence whose snippet contains an `AMOUNT_RE`
match, returning that match's normalization together with the snippet — the
amount being absent when the normalization of that first match fails, with
no further occurrences tried; occurrences whose snippets contain no match
are skipped; the search is absent exactly when no occurrence's snippet
matches the pattern. -/
theorem keyword_search_first_match_occurrence :
    ∀ text kw strict,
      parse_amounts_near_keyword text kw strict = locateSpec text kw strict := by
  intro text kw strict
  exact pankAux_eq_locate text kw strict (text.length + 2) 0

theorem startsWithL_append_left {xs a b : List Char}
    (h : startsWithL xs (a ++ b) = true) : startsWithL xs a = true := by
  rw [startsWithL_iff] at h ⊢
  obtain ⟨rest, rfl⟩ := h
  exact ⟨b ++ rest, by simp [List.append_assoc]⟩

theorem findSubAux_spec {hay n : List Char} :
    ∀ fuel start j, findSubAux hay n start fuel = some j →
      startsWithL (hay.drop j) n = true ∧ start ≤ j ∧ j < start + fuel := by
  intro fuel
  induction fuel with
  | zero =>
    intro start j h
    exact Option.noConfusion h
  | succ fuel ih =>
    intro start j h
    simp only [findSubAux] at h
    split_ifs at h with hs
    · cases h
      exact ⟨hs, le_refl _, by omega⟩
    · obtain ⟨h1, h2, h3⟩ := ih (start + 1) j h
      exact ⟨h1, by omega, by omega⟩

theorem findSubAux_complete {hay n : List Char} :
    ∀ fuel start k, start ≤ k → k < start + fuel →
      startsWithL (hay.drop k) n = true →
      ∃ j, findSubAux hay n start fuel = some j ∧ j ≤ k := by
  intro fuel
  induction fuel with
  | zero =>
    intro start k h1 h2 _
    omega
  | succ fuel ih =>
    intro start k h1 h2 hk
    simp only [findSubAux]
    split_ifs with hs
    · exact ⟨start, rfl, h1⟩
    · have hne : start ≠ k := by
        intro heq
        rw [heq] at hs
        exact hs hk
      obtain ⟨j, hj, hjk⟩ := ih (start + 1) k (by omega) (by omega) hk
      exact ⟨j, hj, hjk⟩

theorem taxe_fonciere_keyword_split :
    toLowerL (strL ("taxe foncière")) =
      toLowerL (strL ("taxe fonci")) ++ toLowerL (strL ("ère")) := by
  decide

/-- C10 (amended): the fallback strict search on `taxe foncière` never runs —
and so never changes the result — when the primary `taxe fonci` search
produces an amount; and every occurrence of `taxe foncière` is also an
occurrence of its prefix `taxe fonci` no later in the text.  The fallback is
NOT redundant in general: its strict window sits `len("taxe foncière") -
len("taxe fonci") = 3` characters further right, so when the primary search
yields no amount the fallback can still find one. -/
theorem taxe_fallback_conditional_equiv :
    (∀ t, (taxeExtractNoFallback t).1.isSome → taxeExtract t = taxeExtractNoFallback t) ∧
    (∀ t i j,
      findSubFrom (toLowerL t) (toLowerL (strL ("taxe foncière"))) i = some j →
      ∃ j2, findSubFrom (toLowerL t) (toLowerL (strL ("taxe fonci"))) i = some j2 ∧ j2 ≤ j) := by
  constructor
  · intro t h
    simp only [taxeExtractNoFallback] at h
    simp only [taxeExtract, taxeExtractNoFallback]
    split_ifs with hc
    rfl
  · intro t i j h
    unfold findSubFrom at h ⊢
    split_ifs at h with hle
    obtain ⟨h1, h2, h3⟩ := findSubAux_spec _ _ _ h
    rw [taxe_fonciere_keyword_split] at h1
    have h1s := startsWithL_append_left h1
    obtain ⟨j2, hj2, hj2k⟩ := findSubAux_complete _ i j h2 h3 h1s
    exact ⟨j2, by rw [if_pos hle]; exact hj2, hj2k⟩

end ScanLbc

namespace ScanLbc


theorem digit_cases {c : Char} (h : isDig c = true) :
    c = '0' ∨ c = '1' ∨ c = '2' ∨ c = '3' ∨ c = '4' ∨
    c = '5' ∨ c = '6' ∨ c = '7' ∨ c = '8' ∨ c = '9' := by
  simp only [isDig, Bool.and_eq_true, decide_eq_true_eq] at h
  obtain ⟨h1, h2⟩ := h
  have n1 : 48 ≤ c.toNat := h1
  have n2 : c.toNat ≤ 57 := h2
  obtain ⟨n, hn⟩ : ∃ n, c.toNat = n := ⟨_, rfl⟩
  rw [hn] at n1 n2
  have hc : c = Char.ofNat n := by rw [← hn, Char.ofNat_toNat]
  interval_cases n <;> subst hc <;> simp

theorem isPySpace_of_isDig {c : Char} (h : isDig c = true) : isPySpace c = false := by
  rcases digit_cases h with rfl|rfl|rfl|rfl|rfl|rfl|rfl|rfl|rfl|rfl <;> decide

theorem digit_ne {c : Char} (d : Char) (h : isDig c = true) (hd : isDig d = false) : c ≠ d := by
  intro he
  rw [he, hd] at h
  exact Bool.noConfusion h

theorem dropWhile_eq_self_head {p : Char → Bool} {x : Char} {xs : List Char}
    (h : p x = false) : (x :: xs).dropWhile p = x :: xs := by
  simp [List.dropWhile_cons, h]

theorem pyStrip_eq_self {v : List Char}
    (h1 : ∀ x, v.head? = some x → isPySpace x = false)
    (h2 : ∀ x, v.getLast? = some x → isPySpace x = false) : pyStrip v = v := by
  unfold pyStrip
  have hd : v.dropWhile isPySpace = v := by
    cases v with
    | nil => rfl
    | cons x xs => exact dropWhile_eq_self_head (h1 x rfl)
  rw [hd]
  have hr : v.reverse.dropWhile isPySpace = v.reverse := by
    cases hv : v.reverse with
    | nil => rfl
    | cons y ys =>
      refine dropWhile_eq_self_head (h2 y ?_)
      rw [← List.head?_reverse, hv]
      rfl
  rw [hr, List.reverse_reverse]

theorem lastIdx_append (c : Char) (xs ys : List Char) :
    lastIdx c (xs ++ ys) =
      match lastIdx c ys with
      | some i => some (i + xs.length)
      | none => lastIdx c xs := by
  induction xs with
  | nil => cases h : lastIdx c ys <;> simp [h, lastIdx]
  | cons x xs ih =>
    have hstep : ∀ l, lastIdx c (x :: l) =
        match lastIdx c l with
        | some j => some (j + 1)
        | none => if x = c then some 0 else none := fun l => rfl
    cases h : lastIdx c ys with
    | some i =>
      rw [List.cons_append, hstep, ih, h]
      simp [Nat.add_assoc]
    | none =>
      rw [List.cons_append, hstep, ih, h, hstep]

theorem lastIdx_eq_none {c : Char} {xs : List Char} (h : c ∉ xs) : lastIdx c xs = none := by
  induction xs with
  | nil => rfl
  | cons x xs ih =>
    simp only [List.mem_cons, not_or] at h
    simp only [lastIdx, ih h.2]
    rw [if_neg (fun he => h.1 he.symm)]

theorem lastIdx_lt_length {c : Char} {xs : List Char} {j : ℕ}
    (h : lastIdx c xs = some j) : j < xs.length := by
  induction xs generalizing j with
  | nil => exact Option.noConfusion h
  | cons x xs ih =>
    simp only [lastIdx] at h
    cases hx : lastIdx c xs with
    | some i =>
      rw [hx] at h
      cases h
      exact Nat.succ_lt_succ (ih hx)
    | none =>
      rw [hx] at h
      split_ifs at h with hc
      cases h
      exact Nat.succ_pos _

theorem not_mem_of_digits {ds : List Char} {c : Char}
    (hds : ∀ x ∈ ds, isDig x = true) (hc : isDig c = false) : c ∉ ds := by
  intro hm
  exact absurd (hds c hm) (by rw [hc]; exact fun h => Bool.noConfusion h)

theorem lastIdx_cons_self {s : Char} {ds : List Char} (h : s ∉ ds) :
    lastIdx s (s :: ds) = some 0 := by
  simp [lastIdx, lastIdx_eq_none h]

theorem takeWhile_digits_append {p : Char → Bool} {A B : List Char}
    (h : ∀ x ∈ A, p x = true) : (A ++ B).takeWhile p = A ++ B.takeWhile p := by
  induction A with
  | nil => rfl
  | cons a A ih =>
    have ha : p a = true := h a (by simp)
    simp [List.takeWhile_cons, ha, ih (fun x hx => h x (by simp [hx]))]

theorem takeWhile_nondigit_head {p : Char → Bool} {t : Char} {ts : List Char}
    (h : p t = false) : (t :: ts).takeWhile p = [] := by
  simp [List.takeWhile_cons, h]

theorem drop_append_len {A B : List Char} (k : ℕ) :
    (A ++ B).drop (A.length + k) = B.drop k := by
  induction A with
  | nil => simp
  | cons a A ih =>
    have hl : A.length + 1 + k = A.length + k + 1 := by omega
    rw [List.cons_append, List.length_cons, hl, List.drop_succ_cons, ih]



theorem pyStrip_eq_self_of_all {v : List Char}
    (h : ∀ x ∈ v, isPySpace x = false) : pyStrip v = v := by
  refine pyStrip_eq_self (fun x hx => h x ?_) (fun x hx => h x ?_)
  · cases v with
    | nil => exact Option.noConfusion hx
    | cons a t =>
      simp only [List.head?_cons, Option.some.injEq] at hx
      simp [← hx]
  · rw [← List.head?_reverse] at hx
    cases hr : v.reverse with
    | nil => rw [hr] at hx; exact Option.noConfusion hx
    | cons b t =>
      rw [hr] at hx
      simp only [List.head?_cons, Option.some.injEq] at hx
      have : x ∈ v.reverse := by rw [hr, ← hx]; simp
      exact List.mem_reverse.mp this

theorem takeWhile_digits_self {A : List Char} (h : ∀ x ∈ A, isDig x = true) :
    A.takeWhile isDig = A := by
  have := takeWhile_digits_append (B := ([] : List Char)) h
  simpa using this

theorem pyFloat_digits {ds : List Char} (hne : ds ≠ [])
    (hds : ∀ x ∈ ds, isDig x = true) :
    pyFloat ds = some ((natValDigits ds : ℚ)) := by
  have hstrip : pyStrip ds = ds :=
    pyStrip_eq_self_of_all (fun x hx => isPySpace_of_isDig (hds x hx))
  have htake : ds.takeWhile isDig = ds := takeWhile_digits_self hds
  simp only [pyFloat, hstrip, htake, List.drop_length]
  simp [List.isEmpty_iff, hne]

theorem pyFloat_digits_dot {A ds : List Char} (hA : A ≠ [])
    (hdA : ∀ x ∈ A, isDig x = true) (hds : ∀ x ∈ ds, isDig x = true) :
    pyFloat (A ++ '.' :: ds) =
      some ((natValDigits A : ℚ) + (natValDigits ds : ℚ) / 10 ^ ds.length) := by
  have hstrip : pyStrip (A ++ '.' :: ds) = A ++ '.' :: ds := by
    refine pyStrip_eq_self_of_all (fun x hx => ?_)
    rcases List.mem_append.mp hx with hx | hx
    · exact isPySpace_of_isDig (hdA x hx)
    · rcases List.mem_cons.mp hx with rfl | hx
      · decide
      · exact isPySpace_of_isDig (hds x hx)
  have htake : (A ++ '.' :: ds).takeWhile isDig = A := by
    rw [takeWhile_digits_append hdA, takeWhile_nondigit_head (by decide)]
    simp
  have hdrop : (A ++ '.' :: ds).drop A.length = '.' :: ds := by
    have := drop_append_len (A := A) (B := '.' :: ds) 0
    simpa using this
  simp only [pyFloat, hstrip, htake, hdrop]
  have hall : ds.all isDig = true := List.all_eq_true.mpr (fun x hx => hds x hx)
  simp [hall, List.isEmpty_iff, hA]

theorem pyFloat_two_dots {X : List Char} (hstrip : pyStrip X = X)
    (h2 : 2 ≤ X.count '.') : pyFloat X = none := by
  obtain ⟨t, ht⟩ := (List.takeWhile_prefix (p := isDig) (l := X))
  have hdrop : X.drop (X.takeWhile isDig).length = t := by
    have h0 := drop_append_len (A := X.takeWhile isDig) (B := t) 0
    rw [ht] at h0
    simpa using h0
  have hcnt0 : (X.takeWhile isDig).count '.' = 0 := by
    refine List.count_eq_zero.mpr (fun hm => ?_)
    have := List.mem_takeWhile_imp hm
    exact absurd this (by decide)
  have hcnt : 2 ≤ t.count '.' := by
    have : X.count '.' = (X.takeWhile isDig).count '.' + t.count '.' := by
      conv_lhs => rw [← ht]
      rw [List.count_append]
    omega
  simp only [pyFloat, hstrip, hdrop]
  cases t with
  | nil => simp at hcnt
  | cons r0 rtl =>
    by_cases hr0 : r0 = '.'
    · subst hr0
      have hmem : '.' ∈ rtl := by
        have : rtl.count '.' + 1 = ('.' :: rtl).count '.' := by
          simp [List.count_cons]
        have h1 : 1 ≤ rtl.count '.' := by omega
        exact List.count_pos_iff.mp (by omega)
      have hall : rtl.all isDig = false := by
        rw [Bool.eq_false_iff]
        intro hall
        exact absurd (List.all_eq_true.mp hall '.' hmem) (by decide)
      simp [hall]
    · split
      · rename_i heq
        exact absurd heq (by simp)
      · rename_i frac heq
        rw [List.cons.injEq] at heq
        exact absurd heq.1 hr0
      · rfl

theorem groups_lastIdx_digitsAfter {c : Char} (hc : isDig c = false)
    (gs : List (Char × List Char))
    (hgs : ∀ g ∈ gs, isDig g.1 = false ∧ g.2.length = 3 ∧ ∀ x ∈ g.2, isDig x = true)
    (T : List Char) (hT : ∀ t0 ts, T = t0 :: ts → isDig t0 = false) (hcT : c ∉ T) :
    ∀ j, lastIdx c (flatGroups gs ++ T) = some j →
      (((flatGroups gs ++ T).drop (j + 1)).takeWhile isDig).length = 3 := by
  induction gs with
  | nil =>
    intro j hj
    rw [show flatGroups [] = [] from rfl, List.nil_append, lastIdx_eq_none hcT] at hj
    exact Option.noConfusion hj
  | cons g rest ih =>
    intro j hj
    obtain ⟨hg1, hg2, hg3⟩ := hgs g (by simp)
    have hflat : flatGroups (g :: rest) ++ T = g.1 :: (g.2 ++ (flatGroups rest ++ T)) := by
      simp [flatGroups]
    rw [hflat] at hj ⊢
    have hstep : lastIdx c (g.1 :: (g.2 ++ (flatGroups rest ++ T))) =
        match lastIdx c (g.2 ++ (flatGroups rest ++ T)) with
        | some i => some (i + 1)
        | none => if g.1 = c then some 0 else none := rfl
    rw [hstep, lastIdx_append c g.2 (flatGroups rest ++ T),
      lastIdx_eq_none (not_mem_of_digits hg3 hc)] at hj
    cases hz : lastIdx c (flatGroups rest ++ T) with
    | some i2 =>
      rw [hz] at hj
      cases hj
      have hd : (g.1 :: (g.2 ++ (flatGroups rest ++ T))).drop (i2 + g.2.length + 1 + 1) =
          (flatGroups rest ++ T).drop (i2 + 1) := by
        have h0 := drop_append_len (A := g.1 :: g.2) (B := flatGroups rest ++ T) (i2 + 1)
        rw [List.cons_append, List.length_cons] at h0
        rw [← h0]
        congr 1
        omega
      rw [hd]
      exact ih (fun g hg => hgs g (by simp [hg])) i2 hz
    | none =>
      rw [hz] at hj
      split_ifs at hj with hgc
      cases hj
      rw [List.drop_succ_cons, List.drop_zero, takeWhile_digits_append hg3]
      have htail : (flatGroups rest ++ T).takeWhile isDig = [] := by
        cases rest with
        | nil =>
          cases hT2 : T with
          | nil => simp [flatGroups, hT2]
          | cons t0 ts =>
            have := hT t0 ts hT2
            simp only [flatGroups, List.flatMap_nil, List.nil_append, hT2]
            exact takeWhile_nondigit_head this
        | cons g2 rest2 =>
          obtain ⟨hh1, _, _⟩ := hgs g2 (by simp)
          have hx : flatGroups (g2 :: rest2) ++ T = g2.1 :: (g2.2 ++ (flatGroups rest2 ++ T)) := by
            simp [flatGroups]
          rw [hx]
          exact takeWhile_nondigit_head hh1
      rw [htail]
      simp [hg2]

theorem lastIdx_digitsAfter_full {c : Char} (hc : isDig c = false)
    {L : List Char} (hL : ∀ x ∈ L, isDig x = true)
    {gs : List (Char × List Char)}
    (hgs : ∀ g ∈ gs, isDig g.1 = false ∧ g.2.length = 3 ∧ ∀ x ∈ g.2, isDig x = true) :
    ∀ j, lastIdx c (L ++ flatGroups gs) = some j →
      digitsAfterIdx (L ++ flatGroups gs) j = 3 := by
  intro j hj
  have h0 := groups_lastIdx_digitsAfter hc gs hgs []
    (fun t0 ts h => List.noConfusion h) (by simp) 
  rw [lastIdx_append c L (flatGroups gs)] at hj
  cases hz : lastIdx c (flatGroups gs) with
  | none =>
    rw [hz, lastIdx_eq_none (not_mem_of_digits hL hc)] at hj
    exact Option.noConfusion hj
  | some i =>
    rw [hz] at hj
    cases hj
    show (((L ++ flatGroups gs).drop (i + L.length + 1)).takeWhile isDig).length = 3
    have hd : (L ++ flatGroups gs).drop (L.length + (i + 1)) = (flatGroups gs).drop (i + 1) :=
      drop_append_len (i + 1)
    have hn : i + L.length + 1 = L.length + (i + 1) := by omega
    rw [hn, hd]
    have := h0 i (by simpa using hz)
    simpa using this

theorem removeChars_append (A B bad : List Char) :
    removeChars (A ++ B) bad = removeChars A bad ++ removeChars B bad :=
  List.filter_append ..

theorem contains_false_of_not_mem {l : List Char} {a : Char} (h : a ∉ l) :
    l.contains a = false := by
  by_contra hcc
  rw [Bool.not_eq_false] at hcc
  exact h (List.elem_iff.mp hcc)

theorem contains_true_of_mem {l : List Char} {a : Char} (h : a ∈ l) :
    l.contains a = true :=
  List.elem_iff.mpr h

theorem removeChars_keep {A bad : List Char} (h : ∀ x ∈ A, bad.contains x = false) :
    removeChars A bad = A := by
  unfold removeChars
  rw [List.filter_eq_self]
  intro a ha
  rw [h a ha]
  rfl

theorem digit_bad_contains_false {bad : List Char} (hb : ∀ b ∈ bad, isDig b = false) :
    ∀ x, isDig x = true → bad.contains x = false := by
  intro x hx
  exact contains_false_of_not_mem (fun hm => absurd hx (by rw [hb x hm]; exact fun h => Bool.noConfusion h))

theorem removeChars_flat_all {gs : List (Char × List Char)} {bad : List Char}
    (hgs : ∀ g ∈ gs, ∀ x ∈ g.2, isDig x = true)
    (hsep : ∀ g ∈ gs, bad.contains g.1 = true)
    (hdig : ∀ x, isDig x = true → bad.contains x = false) :
    removeChars (flatGroups gs) bad = groupDigits gs := by
  induction gs with
  | nil => rfl
  | cons g rest ih =>
    have hflat : flatGroups (g :: rest) = (g.1 :: g.2) ++ flatGroups rest := by
      simp [flatGroups]
    have hgd : groupDigits (g :: rest) = g.2 ++ groupDigits rest := by
      simp [groupDigits]
    rw [hflat, hgd, removeChars_append]
    have hsep1 : bad.contains g.1 = true := hsep g (by simp)
    have h1 : removeChars (g.1 :: g.2) bad = g.2 := by
      unfold removeChars
      rw [List.filter_cons]
      rw [hsep1]
      simp only [Bool.not_true, if_neg (by simp : ¬(false = true))]
      exact removeChars_keep (fun x hx => hdig x (hgs g (by simp) x hx))
    rw [h1, ih (fun g hg => hgs g (by simp [hg])) (fun g hg => hsep g (by simp [hg]))]

theorem map_subst_eq_self {A : List Char} {a b : Char} (h : ∀ x ∈ A, x ≠ a) :
    A.map (fun c => if c = a then b else c) = A := by
  induction A with
  | nil => rfl
  | cons x t ih =>
    simp only [List.map_cons, if_neg (h x (by simp)), ih (fun y hy => h y (by simp [hy]))]

theorem count_dot_map_comma (l : List Char) :
    (l.map (fun c => if c = ',' then '.' else c)).count '.' = l.count ',' + l.count '.' := by
  induction l with
  | nil => rfl
  | cons x t ih =>
    by_cases hx : x = ','
    · subst hx
      simp [List.count_cons, ih]
      omega
    · by_cases hx2 : x = '.'
      · subst hx2
        simp [List.count_cons, ih]
        omega
      · simp [List.count_cons, hx, hx2, ih]

theorem count_removeChars_kept {l bad : List Char} {s : Char}
    (hs : bad.contains s = false) : (removeChars l bad).count s = l.count s := by
  unfold removeChars
  exact List.count_filter (by rw [hs]; rfl)

theorem groupDigits_map_fst (gs : List (Char × List Char)) (f : Char → Char) :
    groupDigits (gs.map (fun g => (f g.1, g.2))) = groupDigits gs := by
  simp [groupDigits, List.flatMap_map]

theorem mem_seps_mapped {gs : List (Char × List Char)} {s : Char}
    (hs : s ≠ ' ') (hs2 : s ≠ nbspChar) :
    s ∈ groupSeps (gs.map (fun g => (if g.1 = nbspChar then ' ' else g.1, g.2))) ↔
      s ∈ groupSeps gs := by
  unfold groupSeps
  rw [List.map_map]
  simp only [List.mem_map, Function.comp]
  constructor
  · rintro ⟨g, hg, he⟩
    by_cases hn : g.1 = nbspChar
    · rw [if_pos hn] at he
      exact absurd he.symm hs
    · rw [if_neg hn] at he
      exact ⟨g, hg, he⟩
  · rintro ⟨g, hg, he⟩
    refine ⟨g, hg, ?_⟩
    by_cases hn : g.1 = nbspChar
    · rw [hn] at he
      exact absurd he.symm hs2
    · rw [if_neg hn]
      exact he

theorem count_removeChars_removed {l bad : List Char} {s : Char}
    (h : bad.contains s = true) : (removeChars l bad).count s = 0 := by
  refine List.count_eq_zero.mpr (fun hm => ?_)
  have := List.of_mem_filter hm
  rw [h] at this
  exact Bool.noConfusion this

theorem fst_mem_flatGroups {gs : List (Char × List Char)} {g : Char × List Char}
    (hg : g ∈ gs) : g.1 ∈ flatGroups gs :=
  List.mem_flatMap.mpr ⟨g, hg, by simp⟩

theorem mem_sep_of_mem_seps {gs : List (Char × List Char)} {s : Char}
    (h : s ∈ groupSeps gs) : ∃ g ∈ gs, g.1 = s := by
  unfold groupSeps at h
  simpa using (List.mem_map.mp h)

theorem getLast?_digit_render {lead : List Char} {gs : List (Char × List Char)}
    {dec : Option (Char × List Char)} (hne : lead ≠ [])
    (hlead : ∀ x ∈ lead, isDig x = true)
    (hgs : ∀ g ∈ gs, g.2.length = 3 ∧ ∀ x ∈ g.2, isDig x = true)
    (hdec : ∀ s ds, dec = some (s, ds) → ds ≠ [] ∧ ∀ x ∈ ds, isDig x = true) :
    ∀ x, (renderAmount lead gs dec).getLast? = some x → isDig x = true := by
  intro x hx
  unfold renderAmount at hx
  cases dec with
  | some sd =>
    obtain ⟨s, ds⟩ := sd
    obtain ⟨hdne, hdd⟩ := hdec s ds rfl
    rw [List.getLast?_append_of_ne_nil _ (by simp [decPart])] at hx
    rcases List.eq_nil_or_concat' ds with rfl | ⟨L, b, rfl⟩
    · exact absurd rfl hdne
    · rw [show decPart (some (s, L ++ [b])) = (s :: L) ++ [b] by simp [decPart],
        List.getLast?_concat] at hx
      cases hx
      exact hdd x (by simp)
  | none =>
    rw [show decPart none = [] from rfl, List.append_nil] at hx
    rcases List.eq_nil_or_concat' gs with rfl | ⟨gs0, gN, rfl⟩
    · rw [show flatGroups [] = [] from rfl, List.append_nil] at hx
      rcases List.eq_nil_or_concat' lead with rfl | ⟨L, b, rfl⟩
      · exact absurd rfl hne
      · rw [List.getLast?_concat] at hx
        cases hx
        exact hlead x (by simp)
    · obtain ⟨hg3, hgd⟩ := hgs gN (by simp)
      have h3 : gN.2 ≠ [] := by
        intro h0
        rw [h0] at hg3
        exact absurd hg3 (by simp)
      rcases List.eq_nil_or_concat' gN.2 with h0 | ⟨L, b, hL⟩
      · exact absurd h0 h3
      · have hflat : flatGroups (gs0 ++ [gN]) = flatGroups gs0 ++ (gN.1 :: gN.2) := by
          simp [flatGroups]
        rw [hflat, ← List.append_assoc, hL,
          show gN.1 :: (L ++ [b]) = (gN.1 :: L) ++ [b] by simp,
          ← List.append_assoc, List.getLast?_concat] at hx
        cases hx
        exact hgd x (by rw [hL]; simp)

theorem pyStrip_render {lead : List Char} {gs : List (Char × List Char)}
    {dec : Option (Char × List Char)} (hne : lead ≠ [])
    (hlead : ∀ x ∈ lead, isDig x = true)
    (hgs : ∀ g ∈ gs, g.2.length = 3 ∧ ∀ x ∈ g.2, isDig x = true)
    (hdec : ∀ s ds, dec = some (s, ds) → ds ≠ [] ∧ ∀ x ∈ ds, isDig x = true) :
    pyStrip (renderAmount lead gs dec) = renderAmount lead gs dec := by
  refine pyStrip_eq_self (fun x hx => ?_) (fun x hx => ?_)
  · rcases List.eq_nil_or_concat' lead with rfl | _
    · exact absurd rfl hne
    rcases hl : lead with _ | ⟨l0, lt⟩
    · exact absurd hl hne
    · rw [show renderAmount lead gs dec = lead ++ (flatGroups gs ++ decPart dec) by
        simp [renderAmount], hl, List.cons_append, List.head?_cons] at hx
      cases hx
      exact isPySpace_of_isDig (hlead x (by rw [hl]; simp))
  · exact isPySpace_of_isDig (getLast?_digit_render hne hlead hgs hdec x hx)

theorem map_nbsp_flat {gs : List (Char × List Char)}
    (hgs : ∀ g ∈ gs, ∀ x ∈ g.2, isDig x = true) :
    (flatGroups gs).map (fun c => if c = nbspChar then ' ' else c) =
      flatGroups (gs.map (fun g => (if g.1 = nbspChar then ' ' else g.1, g.2))) := by
  induction gs with
  | nil => rfl
  | cons g rest ih =>
    have h1 : flatGroups (g :: rest) = (g.1 :: g.2) ++ flatGroups rest := by
      simp [flatGroups]
    have h2 : flatGroups ((g :: rest).map (fun g => (if g.1 = nbspChar then ' ' else g.1, g.2))) =
        ((if g.1 = nbspChar then ' ' else g.1) :: g.2) ++
          flatGroups (rest.map (fun g => (if g.1 = nbspChar then ' ' else g.1, g.2))) := by
      simp [flatGroups]
    rw [h1, h2, List.map_append, List.map_cons,
      map_subst_eq_self (fun x hx => digit_ne nbspChar (hgs g (by simp) x hx) (by decide)),
      ih (fun g hg => hgs g (by simp [hg]))]

theorem map_nbsp_render {lead : List Char} {gs : List (Char × List Char)}
    {dec : Option (Char × List Char)}
    (hlead : ∀ x ∈ lead, isDig x = true)
    (hgs : ∀ g ∈ gs, ∀ x ∈ g.2, isDig x = true)
    (hdec : ∀ s ds, dec = some (s, ds) → (s = '.' ∨ s = ',') ∧ ∀ x ∈ ds, isDig x = true) :
    (renderAmount lead gs dec).map (fun c => if c = nbspChar then ' ' else c) =
      renderAmount lead (gs.map (fun g => (if g.1 = nbspChar then ' ' else g.1, g.2))) dec := by
  unfold renderAmount
  rw [List.map_append, List.map_append,
    map_subst_eq_self (fun x hx => digit_ne nbspChar (hlead x hx) (by decide)),
    map_nbsp_flat hgs]
  congr 1
  cases dec with
  | none => rfl
  | some sd =>
    obtain ⟨s, ds⟩ := sd
    obtain ⟨hs, hdd⟩ := hdec s ds rfl
    show (s :: ds).map _ = s :: ds
    rw [List.map_cons,
      map_subst_eq_self (fun x hx => digit_ne nbspChar (hdd x hx) (by decide))]
    rcases hs with rfl | rfl <;> rw [if_neg (by decide)]

theorem parse_amount_render_none {lead : List Char} {gs : List (Char × List Char)}
    (hwf : WFAmount lead gs none) :
    parse_amount (renderAmount lead gs none) = expectedAmount lead gs none := by
  obtain ⟨hne, hlead, hgs, hdec⟩ := hwf
  have hstrip : pyStrip (renderAmount lead gs none) = renderAmount lead gs none :=
    pyStrip_render hne hlead (fun g hg => ⟨(hgs g hg).2.1, (hgs g hg).2.2⟩)
      (fun s ds h => Option.noConfusion h)
  have hmap : (renderAmount lead gs none).map (fun c => if c = nbspChar then ' ' else c) =
      renderAmount lead (gs.map (fun g => (if g.1 = nbspChar then ' ' else g.1, g.2))) none :=
    map_nbsp_render hlead (fun g hg => (hgs g hg).2.2) (fun s ds h => Option.noConfusion h)
  have hg'sep : ∀ g ∈ gs.map (fun g => (if g.1 = nbspChar then ' ' else g.1, g.2)),
      g.1 = ' ' ∨ g.1 = '.' ∨ g.1 = ',' := by
    intro g hg
    obtain ⟨g0, hg0, rfl⟩ := List.mem_map.mp hg
    show (if g0.1 = nbspChar then ' ' else g0.1) = ' ' ∨
      (if g0.1 = nbspChar then ' ' else g0.1) = '.' ∨
      (if g0.1 = nbspChar then ' ' else g0.1) = ','
    by_cases hn : g0.1 = nbspChar
    · rw [if_pos hn]
      exact Or.inl rfl
    · rw [if_neg hn]
      rcases (hgs g0 hg0).1 with h | h | h | h
      · exact Or.inl h
      · exact absurd h hn
      · exact Or.inr (Or.inl h)
      · exact Or.inr (Or.inr h)
  have hg'dig : ∀ g ∈ gs.map (fun g => (if g.1 = nbspChar then ' ' else g.1, g.2)),
      g.2.length = 3 ∧ ∀ x ∈ g.2, isDig x = true := by
    intro g hg
    obtain ⟨g0, hg0, rfl⟩ := List.mem_map.mp hg
    exact ⟨(hgs g0 hg0).2.1, (hgs g0 hg0).2.2⟩
  have hg'wf : ∀ g ∈ gs.map (fun g => (if g.1 = nbspChar then ' ' else g.1, g.2)),
      isDig g.1 = false ∧ g.2.length = 3 ∧ ∀ x ∈ g.2, isDig x = true := by
    intro g hg
    refine ⟨?_, (hg'dig g hg).1, (hg'dig g hg).2⟩
    rcases hg'sep g hg with h | h | h <;> rw [h] <;> decide
  have hgd : groupDigits (gs.map (fun g => (if g.1 = nbspChar then ' ' else g.1, g.2))) =
      groupDigits gs := by
    simp [groupDigits, List.flatMap_map]
  set gs' := gs.map (fun g => (if g.1 = nbspChar then ' ' else g.1, g.2)) with hgs'def
  have hw : renderAmount lead gs' none = lead ++ flatGroups gs' := by
    simp [renderAmount, decPart]
  simp only [parse_amount]
  rw [hstrip, hmap, hw]
  have hleadne : lead ++ groupDigits gs ≠ [] := by
    intro h0
    exact hne (List.append_eq_nil.mp h0).1
  have hdigall : ∀ x ∈ lead ++ groupDigits gs, isDig x = true := by
    intro x hx
    rcases List.mem_append.mp hx with hx | hx
    · exact hlead x hx
    · obtain ⟨g, hg, hxg⟩ := List.mem_flatMap.mp hx
      exact (hgs g hg).2.2 x hxg
  have hexp : expectedAmount lead gs none = some ((natValDigits (lead ++ groupDigits gs) : ℚ)) := rfl
  rw [hexp]
  by_cases htest : ((lead ++ flatGroups gs').contains ',' || (lead ++ flatGroups gs').contains '.') = true
  · rw [if_pos htest]
    have hDA : ∀ (c : Char), isDig c = false →
        ∀ j, lastIdx c (lead ++ flatGroups gs') = some j →
          digitsAfterIdx (lead ++ flatGroups gs') j = 3 :=
      fun c hc => lastIdx_digitsAfter_full hc hlead hg'wf
    have hclean : removeChars (lead ++ flatGroups gs') [' ', ',', '.'] =
        lead ++ groupDigits gs' := by
      rw [removeChars_append,
        removeChars_keep (fun x hx => digit_bad_contains_false (by decide) x (hlead x hx)),
        removeChars_flat_all (fun g hg => (hg'dig g hg).2)
          (fun g hg => by rcases hg'sep g hg with h | h | h <;> rw [h] <;> decide)
          (digit_bad_contains_false (by decide))]
    have hval : pyFloat (removeChars (lead ++ flatGroups gs') [' ', ',', '.']) =
        some ((natValDigits (lead ++ groupDigits gs) : ℚ)) := by
      rw [hclean, hgd]
      exact pyFloat_digits hleadne hdigall
    cases hlc : lastIdx ',' (lead ++ flatGroups gs') with
    | none =>
      cases hld : lastIdx '.' (lead ++ flatGroups gs') with
      | none =>
        split_ifs with h1 h2 h3 <;>
          first | exact hval | simp at h2 | simp at h3
      | some j =>
        simp only [hDA '.' (by decide) j hld]
        split_ifs with h1 h2 h3 <;>
          first | exact hval | simp at h2 | simp at h3
    | some i =>
      have hci := hDA ',' (by decide) i hlc
      cases hld : lastIdx '.' (lead ++ flatGroups gs') with
      | none =>
        simp only [hci]
        split_ifs with h1 h2 h3 <;>
          first | exact hval | simp at h2 | simp at h3
      | some j =>
        simp only [hci, hDA '.' (by decide) j hld]
        split_ifs with h1 h2 h3 <;>
          first | exact hval | simp at h2 | simp at h3
  · rw [if_neg htest]
    have hnc : (lead ++ flatGroups gs').contains ',' = false ∧
        (lead ++ flatGroups gs').contains '.' = false := by
      constructor <;>
        (by_contra hcc
         rw [Bool.not_eq_false] at hcc
         refine htest ?_
         rw [hcc] <;> simp)
    have hsep1 : ∀ g ∈ gs', g.1 = ' ' := by
      intro g hg
      rcases hg'sep g hg with h | h | h
      · exact h
      · exfalso
        have hm : '.' ∈ lead ++ flatGroups gs' := by
          rw [← h]
          exact List.mem_append.mpr (Or.inr (fst_mem_flatGroups hg))
        rw [contains_true_of_mem hm] at hnc
        exact Bool.noConfusion hnc.2
      · exfalso
        have hm : ',' ∈ lead ++ flatGroups gs' := by
          rw [← h]
          exact List.mem_append.mpr (Or.inr (fst_mem_flatGroups hg))
        rw [contains_true_of_mem hm] at hnc
        exact Bool.noConfusion hnc.1
    have hclean : removeChars (lead ++ flatGroups gs') [' '] = lead ++ groupDigits gs' := by
      rw [removeChars_append,
        removeChars_keep (fun x hx => digit_bad_contains_false (by decide) x (hlead x hx)),
        removeChars_flat_all (fun g hg => (hg'dig g hg).2)
          (fun g hg => by rw [hsep1 g hg]; decide)
          (digit_bad_contains_false (by decide))]
    rw [hclean, hgd]
    exact pyFloat_digits hleadne hdigall

theorem pyStrip_of_amount_chars {X : List Char}
    (h : ∀ y ∈ X, isDig y = true ∨ y = '.' ∨ y = ',') : pyStrip X = X :=
  pyStrip_eq_self_of_all (fun y hy => by
    rcases h y hy with h1 | h1 | h1
    · exact isPySpace_of_isDig h1
    · rw [h1]; decide
    · rw [h1]; decide)

theorem parse_amount_render_some {lead : List Char} {gs : List (Char × List Char)}
    {s : Char} {ds : List Char} (hwf : WFAmount lead gs (some (s, ds))) :
    parse_amount (renderAmount lead gs (some (s, ds))) =
      expectedAmount lead gs (some (s, ds)) := by
  obtain ⟨hne, hlead, hgs, hdec⟩ := hwf
  obtain ⟨hsor, hdsne, hdsdig⟩ := hdec s ds rfl
  have hstrip : pyStrip (renderAmount lead gs (some (s, ds))) =
      renderAmount lead gs (some (s, ds)) :=
    pyStrip_render hne hlead (fun g hg => ⟨(hgs g hg).2.1, (hgs g hg).2.2⟩)
      (fun s1 ds1 h => by cases h; exact ⟨hdsne, hdsdig⟩)
  have hmap : (renderAmount lead gs (some (s, ds))).map
        (fun c => if c = nbspChar then ' ' else c) =
      renderAmount lead (gs.map (fun g => (if g.1 = nbspChar then ' ' else g.1, g.2)))
        (some (s, ds)) :=
    map_nbsp_render hlead (fun g hg => (hgs g hg).2.2)
      (fun s1 ds1 h => by cases h; exact ⟨hsor, hdsdig⟩)
  have hg'sep : ∀ g ∈ gs.map (fun g => (if g.1 = nbspChar then ' ' else g.1, g.2)),
      g.1 = ' ' ∨ g.1 = '.' ∨ g.1 = ',' := by
    intro g hg
    obtain ⟨g0, hg0, rfl⟩ := List.mem_map.mp hg
    show (if g0.1 = nbspChar then ' ' else g0.1) = ' ' ∨
      (if g0.1 = nbspChar then ' ' else g0.1) = '.' ∨
      (if g0.1 = nbspChar then ' ' else g0.1) = ','
    by_cases hn : g0.1 = nbspChar
    · rw [if_pos hn]
      exact Or.inl rfl
    · rw [if_neg hn]
      rcases (hgs g0 hg0).1 with h | h | h | h
      · exact Or.inl h
      · exact absurd h hn
      · exact Or.inr (Or.inl h)
      · exact Or.inr (Or.inr h)
  have hg'dig : ∀ g ∈ gs.map (fun g => (if g.1 = nbspChar then ' ' else g.1, g.2)),
      g.2.length = 3 ∧ ∀ x ∈ g.2, isDig x = true := by
    intro g hg
    obtain ⟨g0, hg0, rfl⟩ := List.mem_map.mp hg
    exact ⟨(hgs g0 hg0).2.1, (hgs g0 hg0).2.2⟩
  have hgd : groupDigits (gs.map (fun g => (if g.1 = nbspChar then ' ' else g.1, g.2))) =
      groupDigits gs := by
    simp [groupDigits, List.flatMap_map]
  set gs' := gs.map (fun g => (if g.1 = nbspChar then ' ' else g.1, g.2)) with hgs'def
  have hleadne : lead ++ groupDigits gs ≠ [] := by
    intro h0
    exact hne (List.append_eq_nil.mp h0).1
  have hdigall : ∀ x ∈ lead ++ groupDigits gs, isDig x = true := by
    intro x hx
    rcases List.mem_append.mp hx with hx | hx
    · exact hlead x hx
    · obtain ⟨g, hg, hxg⟩ := List.mem_flatMap.mp hx
      exact (hgs g hg).2.2 x hxg
  have hsdig : isDig s = false := by rcases hsor with rfl | rfl <;> decide
  have hw : renderAmount lead gs' (some (s, ds)) =
      (lead ++ flatGroups gs') ++ (s :: ds) := rfl
  simp only [parse_amount]
  rw [hstrip, hmap, hw]
  have hlcs : lastIdx s ((lead ++ flatGroups gs') ++ (s :: ds)) =
      some (lead ++ flatGroups gs').length := by
    rw [lastIdx_append s _ (s :: ds), lastIdx_cons_self (not_mem_of_digits hdsdig hsdig)]
    simp
  have hdaP : digitsAfterIdx ((lead ++ flatGroups gs') ++ (s :: ds))
      (lead ++ flatGroups gs').length = ds.length := by
    show ((((lead ++ flatGroups gs') ++ (s :: ds)).drop
      ((lead ++ flatGroups gs').length + 1)).takeWhile isDig).length = ds.length
    rw [drop_append_len 1, List.drop_succ_cons, List.drop_zero, takeWhile_digits_self hdsdig]
  have hon : ∀ (o : Char), o ≠ s → isDig o = false →
      lastIdx o ((lead ++ flatGroups gs') ++ (s :: ds)) = lastIdx o (lead ++ flatGroups gs') := by
    intro o ho hod
    have hnm : o ∉ s :: ds := by
      intro hm
      rcases List.mem_cons.mp hm with h | h
      · exact ho h
      · exact (not_mem_of_digits hdsdig hod) h
    rw [lastIdx_append o _ (s :: ds), lastIdx_eq_none hnm]
  have hwmem : ∀ y ∈ (lead ++ flatGroups gs') ++ (s :: ds),
      isDig y = true ∨ y = ' ' ∨ y = '.' ∨ y = ',' := by
    intro y hy
    rcases List.mem_append.mp hy with hy | hy
    · rcases List.mem_append.mp hy with hy | hy
      · exact Or.inl (hlead y hy)
      · obtain ⟨g, hg, hyg⟩ := List.mem_flatMap.mp hy
        rcases List.mem_cons.mp hyg with rfl | hyg
        · rcases hg'sep g hg with h | h | h <;> simp [h]
        · exact Or.inl ((hg'dig g hg).2 y hyg)
    · rcases List.mem_cons.mp hy with rfl | hy
      · rcases hsor with h | h <;> simp [h]
      · exact Or.inl (hdsdig y hy)
  have hlen1 : 1 ≤ ds.length := List.length_pos.mpr hdsne
  rcases hsor with rfl | rfl
  · -- s = '.'
    have htest : (((lead ++ flatGroups gs') ++ ('.' :: ds)).contains ',' ||
        ((lead ++ flatGroups gs') ++ ('.' :: ds)).contains '.') = true := by
      have hm : '.' ∈ (lead ++ flatGroups gs') ++ ('.' :: ds) :=
        List.mem_append.mpr (Or.inr (by simp))
      rw [contains_true_of_mem hm]
      simp
    rw [if_pos htest]
    have hcond : ¬(idxZ (lastIdx ',' ((lead ++ flatGroups gs') ++ ('.' :: ds))) >
        idxZ (lastIdx '.' ((lead ++ flatGroups gs') ++ ('.' :: ds)))) := by
      rw [hlcs, hon ',' (by decide) (by decide)]
      cases hk : lastIdx ',' (lead ++ flatGroups gs') with
      | none =>
        simp only [idxZ, gt_iff_lt, not_lt]
        omega
      | some k =>
        have := lastIdx_lt_length hk
        simp only [idxZ, gt_iff_lt, not_lt]
        exact_mod_cast Nat.le_of_lt this
    rw [if_neg hcond]
    simp only [hlcs, hdaP]
    by_cases hr : 1 ≤ ds.length ∧ ds.length ≤ 2
    · rw [if_pos (by simp [hr.1, hr.2])]
      by_cases hgsep : '.' ∈ groupSeps gs
      · have hexp : expectedAmount lead gs (some ('.', ds)) = none := by
          simp only [expectedAmount]
          rw [if_pos hr, contains_true_of_mem hgsep]
          rfl
        rw [hexp]
        have hdotP : '.' ∈ lead ++ flatGroups gs' := by
          have h1 : '.' ∈ groupSeps gs' :=
            (mem_seps_mapped (by decide) (by decide)).mpr hgsep
          obtain ⟨g, hg, hfst⟩ := mem_sep_of_mem_seps h1
          exact List.mem_append.mpr (Or.inr (by rw [← hfst]; exact fst_mem_flatGroups hg))
        have hcnt : 2 ≤ (removeChars ((lead ++ flatGroups gs') ++ ('.' :: ds)) [' ', ',']).count '.' := by
          rw [count_removeChars_kept (by decide), List.count_append]
          have h1 : 1 ≤ (lead ++ flatGroups gs').count '.' :=
            List.count_pos_iff.mpr hdotP
          have h2 : 1 ≤ ('.' :: ds).count '.' := by
            simp [List.count_cons]
          omega
        have hstripX : pyStrip (removeChars ((lead ++ flatGroups gs') ++ ('.' :: ds)) [' ', ',']) =
            removeChars ((lead ++ flatGroups gs') ++ ('.' :: ds)) [' ', ','] := by
          refine pyStrip_of_amount_chars (fun y hy => ?_)
          have hyw := List.mem_of_mem_filter hy
          have hyp := List.of_mem_filter hy
          rcases hwmem y hyw with h | h | h | h
          · exact Or.inl h
          · rw [h] at hyp
            exact absurd hyp (by decide)
          · exact Or.inr (Or.inl h)
          · exact Or.inr (Or.inr h)
        exact pyFloat_two_dots hstripX hcnt
      · have hexp : expectedAmount lead gs (some ('.', ds)) =
            some ((natValDigits (lead ++ groupDigits gs) : ℚ) +
              (natValDigits ds : ℚ) / 10 ^ ds.length) := by
          simp only [expectedAmount]
          rw [if_pos hr, contains_false_of_not_mem hgsep]
          rfl
        rw [hexp]
        have hsep' : ∀ g ∈ gs', ([' ', ','] : List Char).contains g.1 = true := by
          intro g hg
          rcases hg'sep g hg with h | h | h
          · rw [h]; decide
          · exfalso
            refine hgsep ((mem_seps_mapped (by decide) (by decide)).mp ?_)
            rw [← h]
            exact List.mem_map.mpr ⟨g, hg, rfl⟩
          · rw [h]; decide
        have hclean : removeChars ((lead ++ flatGroups gs') ++ ('.' :: ds)) [' ', ','] =
            (lead ++ groupDigits gs) ++ ('.' :: ds) := by
          rw [removeChars_append, removeChars_append,
            removeChars_keep (fun x hx => digit_bad_contains_false (by decide) x (hlead x hx)),
            removeChars_flat_all (fun g hg => (hg'dig g hg).2) hsep'
              (digit_bad_contains_false (by decide)),
            removeChars_keep (fun x hx => by
              rcases List.mem_cons.mp hx with rfl | hx
              · decide
              · exact digit_bad_contains_false (by decide) x (hdsdig x hx)),
            hgd]
        rw [hclean]
        exact pyFloat_digits_dot hleadne hdigall hdsdig
    · have hlen3 : ¬(ds.length ≤ 2) := fun hc => hr ⟨hlen1, hc⟩
      rw [if_neg (by simp [hlen3])]
      have hexp : expectedAmount lead gs (some ('.', ds)) =
          some ((natValDigits (lead ++ groupDigits gs ++ ds) : ℚ)) := by
        simp only [expectedAmount]
        rw [if_neg hr]
      rw [hexp]
      have hclean : removeChars ((lead ++ flatGroups gs') ++ ('.' :: ds)) [' ', ',', '.'] =
          (lead ++ groupDigits gs) ++ ds := by
        rw [removeChars_append, removeChars_append,
          removeChars_keep (fun x hx => digit_bad_contains_false (by decide) x (hlead x hx)),
          removeChars_flat_all (fun g hg => (hg'dig g hg).2)
            (fun g hg => by rcases hg'sep g hg with h | h | h <;> rw [h] <;> decide)
            (digit_bad_contains_false (by decide)), hgd]
        congr 1
        show List.filter _ ('.' :: ds) = ds
        rw [List.filter_cons]
        simp only [show (!([' ', ',', '.'] : List Char).contains '.') = false by decide]
        rw [if_neg (by simp)]
        exact removeChars_keep (fun x hx => digit_bad_contains_false (by decide) x (hdsdig x hx))
      rw [hclean]
      have hall : ∀ x ∈ (lead ++ groupDigits gs) ++ ds, isDig x = true := by
        intro x hx
        rcases List.mem_append.mp hx with hx | hx
        · exact hdigall x hx
        · exact hdsdig x hx
      have hne2 : (lead ++ groupDigits gs) ++ ds ≠ [] := by
        intro h0
        exact hleadne (List.append_eq_nil.mp h0).1
      exact pyFloat_digits hne2 hall
  · -- s = ','
    have htest : (((lead ++ flatGroups gs') ++ (',' :: ds)).contains ',' ||
        ((lead ++ flatGroups gs') ++ (',' :: ds)).contains '.') = true := by
      have hm : ',' ∈ (lead ++ flatGroups gs') ++ (',' :: ds) :=
        List.mem_append.mpr (Or.inr (by simp))
      rw [contains_true_of_mem hm]
      simp
    rw [if_pos htest]
    have hcond : idxZ (lastIdx ',' ((lead ++ flatGroups gs') ++ (',' :: ds))) >
        idxZ (lastIdx '.' ((lead ++ flatGroups gs') ++ (',' :: ds))) := by
      rw [hlcs, hon '.' (by decide) (by decide)]
      cases hk : lastIdx '.' (lead ++ flatGroups gs') with
      | none =>
        simp only [idxZ, gt_iff_lt]
        omega
      | some k =>
        have := lastIdx_lt_length hk
        simp only [idxZ, gt_iff_lt]
        exact_mod_cast this
    rw [if_pos hcond]
    simp only [hlcs, hdaP]
    by_cases hr : 1 ≤ ds.length ∧ ds.length ≤ 2
    · rw [if_pos (by simp [hr.1, hr.2])]
      by_cases hgsep : ',' ∈ groupSeps gs
      · have hexp : expectedAmount lead gs (some (',', ds)) = none := by
          simp only [expectedAmount]
          rw [if_pos hr, contains_true_of_mem hgsep]
          rfl
        rw [hexp]
        have hcomP : ',' ∈ lead ++ flatGroups gs' := by
          have h1 : ',' ∈ groupSeps gs' :=
            (mem_seps_mapped (by decide) (by decide)).mpr hgsep
          obtain ⟨g, hg, hfst⟩ := mem_sep_of_mem_seps h1
          exact List.mem_append.mpr (Or.inr (by rw [← hfst]; exact fst_mem_flatGroups hg))
        have hcnt : 2 ≤ ((removeChars ((lead ++ flatGroups gs') ++ (',' :: ds)) [' ', '.']).map
            (fun c => if c = ',' then '.' else c)).count '.' := by
          rw [count_dot_map_comma, count_removeChars_kept (by decide),
            count_removeChars_removed (by decide), List.count_append]
          have h1 : 1 ≤ (lead ++ flatGroups gs').count ',' :=
            List.count_pos_iff.mpr hcomP
          have h2 : 1 ≤ (',' :: ds).count ',' := by
            simp [List.count_cons]
          omega
        have hstripX : pyStrip ((removeChars ((lead ++ flatGroups gs') ++ (',' :: ds)) [' ', '.']).map
              (fun c => if c = ',' then '.' else c)) =
            (removeChars ((lead ++ flatGroups gs') ++ (',' :: ds)) [' ', '.']).map
              (fun c => if c = ',' then '.' else c) := by
          refine pyStrip_of_amount_chars (fun y hy => ?_)
          obtain ⟨z, hz, rfl⟩ := List.mem_map.mp hy
          have hzw := List.mem_of_mem_filter hz
          by_cases hzc : z = ','
          · rw [if_pos hzc]
            exact Or.inr (Or.inl rfl)
          · rw [if_neg hzc]
            have hzp := List.of_mem_filter hz
            rcases hwmem z hzw with h | h | h | h
            · exact Or.inl h
            · rw [h] at hzp
              exact absurd hzp (by decide)
            · exact Or.inr (Or.inl h)
            · exact absurd h hzc
        exact pyFloat_two_dots hstripX hcnt
      · have hexp : expectedAmount lead gs (some (',', ds)) =
            some ((natValDigits (lead ++ groupDigits gs) : ℚ) +
              (natValDigits ds : ℚ) / 10 ^ ds.length) := by
          simp only [expectedAmount]
          rw [if_pos hr, contains_false_of_not_mem hgsep]
          rfl
        rw [hexp]
        have hsep' : ∀ g ∈ gs', ([' ', '.'] : List Char).contains g.1 = true := by
          intro g hg
          rcases hg'sep g hg with h | h | h
          · rw [h]; decide
          · rw [h]; decide
          · exfalso
            refine hgsep ((mem_seps_mapped (by decide) (by decide)).mp ?_)
            rw [← h]
            exact List.mem_map.mpr ⟨g, hg, rfl⟩
        have hclean : removeChars ((lead ++ flatGroups gs') ++ (',' :: ds)) [' ', '.'] =
            (lead ++ groupDigits gs) ++ (',' :: ds) := by
          rw [removeChars_append, removeChars_append,
            removeChars_keep (fun x hx => digit_bad_contains_false (by decide) x (hlead x hx)),
            removeChars_flat_all (fun g hg => (hg'dig g hg).2) hsep'
              (digit_bad_contains_false (by decide)),
            removeChars_keep (fun x hx => by
              rcases List.mem_cons.mp hx with rfl | hx
              · decide
              · exact digit_bad_contains_false (by decide) x (hdsdig x hx)),
            hgd]
        rw [hclean]
        have hmapX : ((lead ++ groupDigits gs) ++ (',' :: ds)).map
            (fun c => if c = ',' then '.' else c) = (lead ++ groupDigits gs) ++ ('.' :: ds) := by
          rw [List.map_append,
            map_subst_eq_self (fun x hx => digit_ne ',' (hdigall x hx) (by decide)),
            List.map_cons, if_pos rfl,
            map_subst_eq_self (fun x hx => digit_ne ',' (hdsdig x hx) (by decide))]
        rw [hmapX]
        exact pyFloat_digits_dot hleadne hdigall hdsdig
    · have hlen3 : ¬(ds.length ≤ 2) := fun hc => hr ⟨hlen1, hc⟩
      rw [if_neg (by simp [hlen3])]
      have hexp : expectedAmount lead gs (some (',', ds)) =
          some ((natValDigits (lead ++ groupDigits gs ++ ds) : ℚ)) := by
        simp only [expectedAmount]
        rw [if_neg hr]
      rw [hexp]
      have hclean : removeChars ((lead ++ flatGroups gs') ++ (',' :: ds)) [' ', ',', '.'] =
          (lead ++ groupDigits gs) ++ ds := by
        rw [removeChars_append, removeChars_append,
          removeChars_keep (fun x hx => digit_bad_contains_false (by decide) x (hlead x hx)),
          removeChars_flat_all (fun g hg => (hg'dig g hg).2)
            (fun g hg => by rcases hg'sep g hg with h | h | h <;> rw [h] <;> decide)
            (digit_bad_contains_false (by decide)), hgd]
        congr 1
        show List.filter _ (',' :: ds) = ds
        rw [List.filter_cons]
        simp only [show (!([' ', ',', '.'] : List Char).contains ',') = false by decide]
        rw [if_neg (by simp)]
        exact removeChars_keep (fun x hx => digit_bad_contains_false (by decide) x (hdsdig x hx))
      rw [hclean]
      have hall : ∀ x ∈ (lead ++ groupDigits gs) ++ ds, isDig x = true := by
        intro x hx
        rcases List.mem_append.mp hx with hx | hx
        · exact hdigall x hx
        · exact hdsdig x hx
      have hne2 : (lead ++ groupDigits gs) ++ ds ≠ [] := by
        intro h0
        exact hleadne (List.append_eq_nil.mp h0).1
      exact pyFloat_digits hne2 hall

end ScanLbc

namespace ScanLbc

section ConcreteEvaluation

attribute [local semireducible] Rat.mul Rat.inv Rat.add Rat.sub Rat.ofScientific

set_option maxRecDepth 600000

/-- C8 : the lenient (`strict = false`) keyword window is the 300-character
window centered on the keyword's start, but the amount search does NOT begin
just past the keyword occurrence: the code drops `len(keyword)` characters
from the start of the WINDOW (which begins up to 300 characters before the
keyword), so the region searched starts far before the keyword and the
returned amount can precede it.  Concretely, in `"prix 123 € loyer"` with
keyword `"loyer"` (which starts at index 11 and ends at index 16), the
search returns the amount 123 located before the keyword, even though the
text after the keyword occurrence contains no amount at all. -/
theorem window_search_region_starts_before_keyword :
    parse_amounts_near_keyword (strL ("prix 123 € loyer")) (strL ("loyer")) false =
      some (some 123, strL ("prix 123 € loyer")) ∧
    findSubFrom (toLowerL (strL ("prix 123 € loyer"))) (toLowerL (strL ("loyer"))) 0 =
      some 11 ∧
    reSearch amountRE ((strL ("prix 123 € loyer")).drop 16) = none := by
  refine ⟨by decide, by decide, by decide⟩

/-- Counterexample to C1 as stated: with a structured price of `0.0` the
record has `price` and `annual_rent` both present, yet `gross_yield_pct` is
absent — Python's `if price and annual_rent:` treats the price `0.0` as
falsy and skips the whole yield block. -/
theorem gross_yield_presence_cex :
    (parse_ad_page (strL ("loyer annuel : 9 600 €")) (some 0)).price = some 0 ∧
    (parse_ad_page (strL ("loyer annuel : 9 600 €")) (some 0)).annual_rent = some 9600 ∧
    (parse_ad_page (strL ("loyer annuel : 9 600 €")) (some 0)).gross_yield_pct = none := by
  refine ⟨by decide, by decide, by decide⟩

/-- Counterexample to C3 as stated: `annual_rent` is rounded from the
UNROUNDED monthly value times 12, not from the stored 2-decimal
`monthly_rent`; here `monthly_rent = 308.33` but
`annual_rent = 3700 ≠ round(308.33 * 12, 2) = 3699.96`. -/
theorem annual_rent_rounding_cex :
    (parse_ad_page (strL ("loyer annuel : 3 700 €")) none).monthly_rent =
      some (30833 / 100) ∧
    (parse_ad_page (strL ("loyer annuel : 3 700 €")) none).annual_rent = some 3700 ∧
    round2 (30833 / 100 * 12) = 92499 / 25 ∧ (3700 : ℚ) ≠ 92499 / 25 := by
  refine ⟨by decide, by decide, by decide, by decide⟩

/-- Counterexample to C4 as stated: when the yield block runs, the
`0.0`-defaulting of missing charges and property tax DOES leak into the
returned record — here no charges and no property tax are determined from
the text, yet `annual_charges` and `taxe_fonciere_annual` are reported as
`0` (while `monthly_charges` stays absent). -/
theorem charges_zero_leak_cex :
    (parse_ad_page (strL ("loyer annuel : 9 600 €")) (some 150000)).monthly_charges =
      none ∧
    (parse_ad_page (strL ("loyer annuel : 9 600 €")) (some 150000)).annual_charges =
      some 0 ∧
    (parse_ad_page (strL ("loyer annuel : 9 600 €")) (some 150000)).taxe_fonciere_annual =
      some 0 := by
  refine ⟨by decide, by decide, by decide⟩

/-- Counterexample to C5 as stated: the code checks the MONTHLY markers
first, so a snippet containing both `"annuel"` and `"par mois"` is
classified monthly, not annual. -/
theorem period_priority_cex :
    detect_period_from_snippet (strL ("loyer annuel de 9 600 € soit 800 € par mois")) =
      some Period.monthly ∧
    containsSub (toLowerL (strL ("loyer annuel de 9 600 € soit 800 € par mois")))
      (strL ("annuel")) = true := by
  refine ⟨by decide, by decide⟩

/-- Counterexample to C9 as stated: the scan does NOT advance to the next
keyword occurrence when normalization fails — it stops at the first
occurrence whose snippet matches `AMOUNT_RE` and returns a `None` amount,
even though the next occurrence (cursor 1 onwards) would yield 900. -/
theorem first_match_short_circuit_cex :
    (parse_amounts_near_keyword (strL ("loyer 1.234.56 € puis loyer 900 €"))
        (strL ("loyer")) true).map Prod.fst = some none ∧
    (pankAux (strL ("loyer 1.234.56 € puis loyer 900 €")) (strL ("loyer")) true 1 35).map
        Prod.fst = some (some 900) := by
  refine ⟨by decide, by decide⟩

/-- Counterexample to C10 as stated: the fallback search on `"taxe foncière"`
is NOT redundant — its strict window extends 3 characters further right than
the primary `"taxe fonci"` window, so an amount sitting in those 3 columns
is found only by the fallback. -/
theorem taxe_fallback_changes_result_cex :
    (taxeExtractNoFallback
        (strL ("taxe foncière") ++ List.replicate 47 ' ' ++ strL ("5 €"))).1 = none ∧
    (taxeExtract
        (strL ("taxe foncière") ++ List.replicate 47 ' ' ++ strL ("5 €"))).1 = some 5 := by
  refine ⟨by decide, by decide⟩

/-- Counterexample to C7 as stated: in `"1.234.56"` the rightmost `.` is
followed by exactly 2 digits, so by the claimed rule it would be the decimal
separator (value `1234.56`); the code instead strips the other `.` as
grouping but keeps BOTH dots' normalization inconsistent — `float` receives
a string with two dots and the normalizer returns `None`. -/
theorem repeated_separator_cex :
    parse_amount (strL ("1.234.56")) = none ∧
    lastIdx '.' (strL ("1.234.56")) = some 5 ∧
    digitsAfterIdx (strL ("1.234.56")) 5 = 2 := by
  refine ⟨by decide, by decide, by decide⟩

theorem yield_rejection_resets_rent_witness :
    (parse_ad_page (strL ("loyer mensuel de 500")) (some 20000)).monthly_rent = none ∧
    (parse_ad_page (strL ("loyer mensuel de 500")) (some 20000)).annual_rent = none ∧
    (parse_ad_page (strL ("loyer mensuel de 500")) (some 20000)).gross_yield_pct = none ∧
    (parse_ad_page (strL ("loyer mensuel de 500")) (some 20000)).net_yield_pct = none :=
  yield_rejection_resets_rent (strL ("loyer mensuel de 500")) (some 20000) 20000 500
    (by decide) (by norm_num) (by decide) (by norm_num)

theorem monetary_nonneg_amended_witness :
    (parse_ad_page (strL ("loyer annuel : 9 600 €")) (some 150000)).annual_charges.isSome ∧
    (parse_ad_page (strL ("loyer annuel : 9 600 €")) (some 150000)).taxe_fonciere_annual.isSome :=
  (monetary_nonneg_amended (strL ("loyer annuel : 9 600 €")) (some 150000)
    (by intro q hq; injection hq with h; rw [← h]; norm_num)).2.2.2.2.2.2 (by decide)

/-- C7 (amended): the spec's four examples hold —
`normalize("4 524,92") = 4524.92`, `normalize("3.125") = 3125.0`,
`normalize("1234.56") = 1234.56`, `normalize("12,5") = 12.5` — and on every
well-formed amount literal (digit lead, separator-prefixed 3-digit groups,
optional `.`/`,` decimal part) the rightmost separator is treated as the
decimal separator exactly when 1 or 2 digits follow it, with other
separators and spaces removed as grouping, EXCEPT that when the decimal
separator's character also occurs among the grouping separators the cleaning
leaves two of them and normalization fails with `None`; with 0 digits a
decimal part cannot occur in the capture language, and with 3 or more
trailing digits every separator is removed and the value has no decimal
part. -/
theorem normalizer_separator_rule :
    parse_amount (strL ("4 524,92")) = some (452492 / 100) ∧
    parse_amount (strL ("3.125")) = some 3125 ∧
    parse_amount (strL ("1234.56")) = some (123456 / 100) ∧
    parse_amount (strL ("12,5")) = some (125 / 10) ∧
    (∀ lead gs dec, WFAmount lead gs dec →
      parse_amount (renderAmount lead gs dec) = expectedAmount lead gs dec) := by
  refine ⟨by decide, by decide, by decide, by decide, ?_⟩
  intro lead gs dec hwf
  cases dec with
  | none => exact parse_amount_render_none hwf
  | some sd =>
    obtain ⟨s, ds⟩ := sd
    exact parse_amount_render_some hwf


end ConcreteEvaluation

end ScanLbc
